import Mathlib

/-!
Verification of the grid-indexing and regular-grid Delaunay triangulation layer
of `safe_learning/functions.py` (classes `GridWorld`, `PiecewiseConstant`,
`Triangulation`).

States are rational vectors `Fin n → ℚ` (exact arithmetic standing for the
floating-point arithmetic of the implementation), flat vertex / rectangle /
simplex indices are natural numbers, and the sentinel-carrying outputs of
`scipy.spatial.Delaunay.find_simplex` are integers (scipy uses `-1` for
"not found").  The external `scipy.spatial.Delaunay` object built once for the
reference cell is modelled abstractly by the structure `RefDelaunay`; every
function of the repository itself is translated definition by definition.

The file holds all definitions first, then all theorems.
-/

/-- Product of a shape vector, `∏ d, s d`, written as a structural recursion
so that concrete instances evaluate by `decide`/`rfl`.  This is the model of
`np.prod` applied to a shape. -/
def prodFn : ∀ {n : ℕ}, (Fin n → ℕ) → ℕ
  | 0, _ => 1
  | _ + 1, s => s 0 * prodFn (fun i => s i.succ)

/-- Model of `np.ravel_multi_index` with C (row-major) order: the flat index of
a multi-index `ix` in the lattice of shape `s`.  (numpy raises if a component
is out of range; all uses below establish the components are in range.) -/
def ravel : ∀ {n : ℕ}, (Fin n → ℕ) → (Fin n → ℕ) → ℕ
  | 0, _, _ => 0
  | _ + 1, s, ix =>
    ix 0 * prodFn (fun i => s i.succ) + ravel (fun i => s i.succ) (fun i => ix i.succ)

/-- Model of `np.unravel_index` with C order on an in-range flat index `x`:
the multi-index of `x` in the lattice of shape `s`.  (numpy raises for
`x ≥ prodFn s`; all uses below establish the flat index is in range.) -/
def unravel : ∀ {n : ℕ}, (Fin n → ℕ) → ℕ → Fin n → ℕ
  | 0, _, _ => fun i => i.elim0
  | _ + 1, s, x =>
    Fin.cons (x / prodFn (fun i => s i.succ))
      (unravel (fun i => s i.succ) (x % prodFn (fun i => s i.succ)))

/-- Integer-valued variant of `ravel`, for the multi-indices that numpy holds
as (possibly negative) machine integers before `ravel_multi_index` checks
them. -/
def ravelI : ∀ {n : ℕ}, (Fin n → ℕ) → (Fin n → ℤ) → ℤ
  | 0, _, _ => 0
  | _ + 1, s, ix =>
    ix 0 * (prodFn (fun i => s i.succ) : ℤ) + ravelI (fun i => s i.succ) (fun i => ix i.succ)

/-- Model of `np.rint`: round to the nearest integer, ties to the nearest even
integer (the IEEE default used by numpy). -/
def rint (q : ℚ) : ℤ :=
  if q - ⌊q⌋ < 1 / 2 then ⌊q⌋
  else if (1 : ℚ) / 2 < q - ⌊q⌋ then ⌊q⌋ + 1
  else if 2 ∣ ⌊q⌋ then ⌊q⌋ else ⌊q⌋ + 1

/-- Model of `np.clip(x, lo, hi) = np.minimum(hi, np.maximum(x, lo))`. -/
def clip (lo hi x : ℚ) : ℚ := min (max x lo) hi

/-- Model of `np.remainder x u = x - ⌊x / u⌋ * u` (the `%` of the source, whose
result takes the sign of the divisor). -/
def qmod (x u : ℚ) : ℚ := x - ⌊x / u⌋ * u

/-- Embedding of the class `GridWorld` of `safe_learning/functions.py`: a
regular grid on `n` dimensions given by per-dimension `(min, max)` limits and
per-dimension cell counts.  The field `eps` models `np.finfo(dtype).eps`, the
machine epsilon of the floating dtype, which `_center_states` uses for its
`2 * eps` clipping margin. -/
structure GridWorld (n : ℕ) where
  limits : Fin n → ℚ × ℚ
  num_points : Fin n → ℕ
  eps : ℚ

variable {n : ℕ}

/-- Source: `self.offset = self.limits[:, 0]`. -/
def GridWorld.offset (g : GridWorld n) (d : Fin n) : ℚ := (g.limits d).1

/-- Source: `self.unit_maxes = (self.limits[:, 1] - self.offset) / self.num_points`. -/
def GridWorld.unit_maxes (g : GridWorld n) (d : Fin n) : ℚ :=
  ((g.limits d).2 - g.offset d) / (g.num_points d : ℚ)

/-- Source: `self.offset_limits[:, 1] = self.limits[:, 1] - self.offset`
(the second column of `offset_limits`; the first column is zero). -/
def GridWorld.extent (g : GridWorld n) (d : Fin n) : ℚ := (g.limits d).2 - g.offset d

/-- Source: `self.nrectangles = np.prod(self.num_points)`. -/
def GridWorld.nrectangles (g : GridWorld n) : ℕ := prodFn g.num_points

/-- Source: `self.nindex = np.prod(self.num_points + 1)`. -/
def GridWorld.nindex (g : GridWorld n) : ℕ := prodFn (fun d => g.num_points d + 1)

/-- Embedding of `GridWorld._center_states`: subtract the offset and, when
`doClip` is set, clip each coordinate into
`[offset_limits[:,0] + 2 eps, offset_limits[:,1] - 2 eps]`. -/
def GridWorld.center_states (g : GridWorld n) (doClip : Bool) (s : Fin n → ℚ)
    (d : Fin n) : ℚ :=
  if doClip then clip (0 + 2 * g.eps) (g.extent d - 2 * g.eps) (s d - g.offset d)
  else s d - g.offset d

/-- Embedding of `GridWorld.index_to_state`: unravel the flat vertex index over
the `num_points + 1` lattice, scale by `unit_maxes`, add the offset. -/
def GridWorld.index_to_state (g : GridWorld n) (i : ℕ) (d : Fin n) : ℚ :=
  (unravel (fun e => g.num_points e + 1) i d : ℚ) * g.unit_maxes d + g.offset d

/-- Embedding of `GridWorld.state_to_index`: clip the state to the limits,
rescale each coordinate to grid units, round to the nearest vertex with
`np.rint`, and ravel over the `num_points + 1` lattice.  The result is kept as
an integer because the intermediate multi-index is a machine integer in the
source (`np.ravel_multi_index` would raise on a negative component; the
round-trip theorem shows the components are in range on grid vertices). -/
def GridWorld.state_to_index (g : GridWorld n) (s : Fin n → ℚ) : ℤ :=
  ravelI (fun d => g.num_points d + 1)
    (fun d => rint ((clip ((g.limits d).1) ((g.limits d).2) (s d) - g.offset d) /
      g.unit_maxes d))

/-- Embedding of `GridWorld.state_to_rectangle`: center/clip the states (unless
`offset` is false, meaning they already are), floor-divide by `unit_maxes`, and
ravel over the `num_points` lattice.  The floor quotients are converted by
`Int.toNat`, which is exact on the in-range components that
`np.ravel_multi_index` accepts (it raises on any negative component; the range
theorem for this function shows the components are in range). -/
def GridWorld.state_to_rectangle (g : GridWorld n) (offset : Bool) (s : Fin n → ℚ) : ℕ :=
  let c : Fin n → ℚ := if offset then g.center_states true s else s
  ravel g.num_points (fun d => (⌊c d / g.unit_maxes d⌋).toNat)

/-- Embedding of `GridWorld.rectangle_to_state`: unravel the rectangle index
over the `num_points` lattice, scale by `unit_maxes`, add the offset. -/
def GridWorld.rectangle_to_state (g : GridWorld n) (r : ℕ) (d : Fin n) : ℚ :=
  (unravel g.num_points r d : ℚ) * g.unit_maxes d + g.offset d

/-- Embedding of `GridWorld.rectangle_corner_index`: unravel against
`num_points`, re-ravel the same multi-index against `num_points + 1`. -/
def GridWorld.rectangle_corner_index (g : GridWorld n) (r : ℕ) : ℕ :=
  ravel (fun d => g.num_points d + 1) (unravel g.num_points r)

/-- A well-formed grid: positive extent and at least one cell per dimension
(the construction-time validity condition of the spec). -/
def GridWorld.valid (g : GridWorld n) : Prop :=
  ∀ d, (g.limits d).1 < (g.limits d).2 ∧ 0 < g.num_points d

/-- The machine-epsilon margin is positive and small against every dimension's
extent, as is the case for any realistic float grid. -/
def GridWorld.eps_ok (g : GridWorld n) : Prop :=
  0 < g.eps ∧ ∀ d, 2 * g.eps < g.extent d

/-- Embedding of `PiecewiseConstant.gradient`, which the source writes as
`np.zeros((len(points), self.nindex))`: a list with one row per query point,
each row a zero vector of length `nindex`.  Rows are modelled as lists so that
the array's second shape component is observable as the row length. -/
def PiecewiseConstant.gradient (g : GridWorld n) (points : List (Fin n → ℚ)) :
    List (List ℚ) :=
  points.map (fun _ => List.replicate g.nindex 0)

/-- Modelled from the spec: the external `scipy.spatial.Delaunay` object built
once on the corners of one reference cell of widths `u` (§4.2 of the spec;
scipy itself is not part of the repository).  `points` are the stored corner
coordinates in cell-local physical units, each coordinate `0` or the cell
width; `simplices` lists the `ndim + 1` corner ids of each unit simplex; and
`find_unit` is the point-location routine `Delaunay.find_simplex`, which
returns a valid simplex id for every point inside the closed reference cell
(and the sentinel `-1` only for points outside it). -/
structure RefDelaunay (n : ℕ) (u : Fin n → ℚ) where
  nsimplex : ℕ
  points : ℕ → Fin n → ℚ
  simplices : ℕ → Fin (n + 1) → ℕ
  find_unit : (Fin n → ℚ) → ℤ
  points_mem : ∀ p d, points p d = 0 ∨ points p d = u d
  find_unit_mem : ∀ p, (∀ d, 0 ≤ p d ∧ p d ≤ u d) →
    0 ≤ find_unit p ∧ find_unit p < (nsimplex : ℤ)

/-- Embedding of the class `Triangulation`: a `GridWorld` together with the
one-time reference-cell triangulation (`self.triangulation`, the scipy object,
modelled by `RefDelaunay`) and the `project` flag. -/
structure Triangulation (n : ℕ) extends GridWorld n where
  triangulation : RefDelaunay n (GridWorld.unit_maxes toGridWorld)
  project : Bool

/-- Embedding of `Triangulation._triangulation_simplex_indices`: each local
corner id of each scipy simplex is replaced by
`state_to_index(triangulation.points + offset)`, mapping the reference cell's
corners into the grid's global vertex-index space.  (`Int.toNat` is exact here:
the range theorems show these indices are nonnegative on a valid grid.) -/
def Triangulation.unit_simplices (t : Triangulation n) (s : ℕ) (i : Fin (n + 1)) : ℕ :=
  (t.toGridWorld.state_to_index
    (fun d => t.triangulation.points (t.triangulation.simplices s i) d +
      t.toGridWorld.offset d)).toNat

/-- The matrix `simplex_points[1:] - simplex_points[:1]` of
`Triangulation._update_hyperplanes`: row `i` is vertex `i+1` minus vertex `0`
of the unit simplex `s`, in physical units. -/
def Triangulation.simplex_edges (t : Triangulation n) (s : ℕ) :
    Matrix (Fin n) (Fin n) ℚ :=
  Matrix.of fun i d =>
    t.toGridWorld.index_to_state (t.unit_simplices s i.succ) d -
      t.toGridWorld.index_to_state (t.unit_simplices s 0) d

/-- Model of `np.linalg.inv` over exact rationals: `det⁻¹ • adjugate`.
(numpy raises `LinAlgError` on singular input, where this model returns the
zero matrix; every use carries a nonzero-determinant hypothesis.) -/
def matInv (A : Matrix (Fin n) (Fin n) ℚ) : Matrix (Fin n) (Fin n) ℚ :=
  A.det⁻¹ • A.adjugate

/-- Embedding of `Triangulation._update_hyperplanes`: the cached inverse edge
matrix of each unit simplex. -/
def Triangulation.hyperplanes (t : Triangulation n) (s : ℕ) :
    Matrix (Fin n) (Fin n) ℚ :=
  matInv (t.simplex_edges s)

/-- Source: `self.nsimplex = self.triangulation.nsimplex * self.nrectangles`. -/
def Triangulation.nsimplex (t : Triangulation n) : ℕ :=
  t.triangulation.nsimplex * t.toGridWorld.nrectangles

/-- Embedding of `Triangulation.find_simplex`: center and clip the point, take
it modulo `unit_maxes` to get cell-local coordinates, locate the unit simplex
with the reference triangulation, and add `rectangle_index * nsimplex_per_cell`
computed from the un-modulo'd centered coordinate. -/
def Triangulation.find_simplex (t : Triangulation n) (p : Fin n → ℚ) : ℤ :=
  t.triangulation.find_unit
      (fun d => qmod (t.toGridWorld.center_states true p d) (t.toGridWorld.unit_maxes d)) +
    (t.toGridWorld.state_to_rectangle false (t.toGridWorld.center_states true p) : ℤ) *
      (t.triangulation.nsimplex : ℤ)

/-- The reduction `simplex_ids % self.triangulation.nsimplex` used throughout
the query path (`np.remainder` on machine integers is `Int.emod` for a
positive divisor). -/
def Triangulation.unit_id (t : Triangulation n) (idx : ℤ) : ℕ :=
  (idx % (t.triangulation.nsimplex : ℤ)).toNat

/-- Embedding of `Triangulation.simplices`: split the global id by
mod / floor-division with `triangulation.nsimplex` (`Int.emod` / `Int.ediv`,
matching `np.remainder` / `np.floor_divide` for the positive divisor), look up
the unit simplex row and add the rectangle's corner-vertex index to every
entry.  (`Int.toNat` on the quotient is exact for the nonnegative ids
established by the range theorem for `find_simplex`; numpy would raise inside
`rectangle_corner_index` on a negative rectangle index.) -/
def Triangulation.simplices (t : Triangulation n) (idx : ℤ) (i : Fin (n + 1)) : ℕ :=
  t.unit_simplices (t.unit_id idx) i +
    t.toGridWorld.rectangle_corner_index
      (idx / (t.triangulation.nsimplex : ℤ)).toNat

/-- The point whose barycentric weights `_get_weights` computes: the query
point itself, or its clip onto the limits when `self.project` is set. -/
def Triangulation.get_weights_point (t : Triangulation n) (p : Fin n → ℚ)
    (d : Fin n) : ℚ :=
  if t.project then clip ((t.toGridWorld.limits d).1) ((t.toGridWorld.limits d).2) (p d)
  else p d

/-- Embedding of `Triangulation._get_weights` (the weights row of one query
point): non-origin weights `(point - origin) · hyperplane` (the einsum
`ij,ijk->ik`), origin weight `1 -` their sum. -/
def Triangulation.get_weights (t : Triangulation n) (p : Fin n → ℚ) :
    Fin (n + 1) → ℚ :=
  let sid := t.find_simplex p
  let origin := t.toGridWorld.index_to_state (t.simplices sid 0)
  let H := t.hyperplanes (t.unit_id sid)
  let w : Fin n → ℚ := fun k => ∑ j, (t.get_weights_point p j - origin j) * H j k
  Fin.cons (1 - ∑ k, w k) w

/-- Embedding of `Triangulation.evaluate` for one query point: the weighted sum
of `vertex_values` on the located simplex's vertices (einsum `ij,ij->i`). -/
def Triangulation.evaluate (t : Triangulation n) (v : ℕ → ℚ) (p : Fin n → ℚ) : ℚ :=
  ∑ i, t.get_weights p i * v (t.simplices (t.find_simplex p) i)

/-- Embedding of `Triangulation._get_weights_gradient` (the gradient-weight
matrix of one query point): non-origin columns are the cached hyperplane
inverse, the origin column is minus the row sum. -/
def Triangulation.get_weights_gradient (t : Triangulation n) (p : Fin n → ℚ)
    (d : Fin n) : Fin (n + 1) → ℚ :=
  let H := t.hyperplanes (t.unit_id (t.find_simplex p))
  Fin.cons (- ∑ k, H d k) (fun k => H d k)

/-- Embedding of `Triangulation.gradient` for one query point: contraction of
the gradient weights with `vertex_values` (einsum `ijk,ik->ij`). -/
def Triangulation.gradient (t : Triangulation n) (v : ℕ → ℚ) (p : Fin n → ℚ)
    (d : Fin n) : ℚ :=
  ∑ i, t.get_weights_gradient p d i * v (t.simplices (t.find_simplex p) i)

/-- The `ndim + 1` COO triples `(row, col, value)` that
`Triangulation.evaluate_constraint` emits for the query point `p` sitting at
row `r`: columns are the located simplex's vertex indices, values its
weights. -/
def Triangulation.eval_row_block (t : Triangulation n) (r : ℕ) (p : Fin n → ℚ) :
    List (ℕ × ℕ × ℚ) :=
  (List.finRange (n + 1)).map
    (fun j => (r, t.simplices (t.find_simplex p) j, t.get_weights p j))

/-- The COO triples of `evaluate_constraint` for the points list `ps`, the
first point sitting at row `i` (the source builds the same triples with
`rows = np.repeat(np.arange(len(points)), nsimp)`, `cols = simplices.ravel()`,
`data = weights.ravel()`). -/
def Triangulation.eval_entries_from (t : Triangulation n) :
    ℕ → List (Fin n → ℚ) → List (ℕ × ℕ × ℚ)
  | _, [] => []
  | i, p :: ps => t.eval_row_block i p ++ Triangulation.eval_entries_from t (i + 1) ps

/-- Embedding of `Triangulation.evaluate_constraint` as its COO triple list;
the sparse matrix itself is `coo_entry` of this list, with declared shape
`(len(points), nindex)`. -/
def Triangulation.evaluate_constraint_entries (t : Triangulation n)
    (ps : List (Fin n → ℚ)) : List (ℕ × ℕ × ℚ) :=
  t.eval_entries_from 0 ps

/-- The `ndim + 1` COO triples of `gradient_constraint` for query point `p`,
physical dimension `d`, sitting at matrix row `r`. -/
def Triangulation.grad_row_block (t : Triangulation n) (r : ℕ) (p : Fin n → ℚ)
    (d : Fin n) : List (ℕ × ℕ × ℚ) :=
  (List.finRange (n + 1)).map
    (fun j => (r, t.simplices (t.find_simplex p) j, t.get_weights_gradient p d j))

/-- All COO triples of `gradient_constraint` belonging to the query point with
index `i`: its `ndim` dimension rows `i * ndim + d` in order (the source's
`rows = np.repeat(np.arange(npoints * ndim), nsimp)`,
`cols = np.tile(simplices, (1, ndim)).ravel()`, `data = weights.ravel()` with
`weights` of shape `(npoints, ndim, nsimp)`). -/
def Triangulation.grad_point_block (t : Triangulation n) (i : ℕ) (p : Fin n → ℚ) :
    List (ℕ × ℕ × ℚ) :=
  (List.finRange n).flatMap (fun d => t.grad_row_block (i * n + d.val) p d)

/-- The COO triples of `gradient_constraint` for the points list `ps`, the
first point having point-index `i`. -/
def Triangulation.grad_entries_from (t : Triangulation n) :
    ℕ → List (Fin n → ℚ) → List (ℕ × ℕ × ℚ)
  | _, [] => []
  | i, p :: ps => t.grad_point_block i p ++ Triangulation.grad_entries_from t (i + 1) ps

/-- Embedding of `Triangulation.gradient_constraint` as its COO triple list;
the sparse matrix itself is `coo_entry` of this list, with declared shape
`(ndim * len(points), nindex)`. -/
def Triangulation.gradient_constraint_entries (t : Triangulation n)
    (ps : List (Fin n → ℚ)) : List (ℕ × ℕ × ℚ) :=
  t.grad_entries_from 0 ps

/-- The matrix a COO triple list denotes: entry `(r, c)` is the sum of the
values of all triples at `(r, c)` (scipy's `coo_matrix` sums duplicates). -/
def coo_entry : List (ℕ × ℕ × ℚ) → ℕ → ℕ → ℚ
  | [], _, _ => 0
  | e :: l, r, c => (if e.1 = r ∧ e.2.1 = c then e.2.2 else 0) + coo_entry l r c

/-- Row `r` of the product of a COO matrix with `nCols` declared columns and a
dense vector `v`. -/
def coo_dot_row (l : List (ℕ × ℕ × ℚ)) (nCols : ℕ) (v : ℕ → ℚ) (r : ℕ) : ℚ :=
  ∑ c ∈ Finset.range nCols, coo_entry l r c * v c

/-- Model of `np.reshape` of a flat vector into a 2-D array with `cols`
columns, C order: entry `(i, j)` is `y (i * cols + j)`. -/
def reshape2 (cols : ℕ) (y : ℕ → ℚ) (i j : ℕ) : ℚ := y (i * cols + j)

/-- The query point `p` lies strictly inside the (full-dimensional) simplex
with vertex states `y`: it is a positive convex combination of the
vertices. -/
def strictlyInside (p : Fin n → ℚ) (y : Fin (n + 1) → Fin n → ℚ) : Prop :=
  ∃ lam : Fin (n + 1) → ℚ,
    (∀ i, 0 < lam i) ∧ (∑ i, lam i) = 1 ∧ ∀ d, (∑ i, lam i * y i d) = p d

/-- Concrete 2-D grid over `[0,1] × [0,1]` with 2 cells per axis (9 vertices),
the concrete scenario of §8 of the spec, with a machine epsilon of `1/1000`. -/
def gEx : GridWorld 2 :=
  ⟨![((0 : ℚ), 1), ((0 : ℚ), 1)], ![2, 2], 1 / 1000⟩

/-- A concrete reference-cell triangulation of the `1/2 × 1/2` cell of `gEx`:
corners `(0,0), (1/2,0), (0,1/2), (1/2,1/2)`, split along the antidiagonal
into the two unit simplices `[0,1,2]` and `[3,1,2]`, with the matching
point-location rule. -/
def refEx : RefDelaunay 2 gEx.unit_maxes where
  nsimplex := 2
  points := fun i =>
    match i with
    | 0 => ![0, 0]
    | 1 => ![(1 : ℚ) / 2, 0]
    | 2 => ![0, (1 : ℚ) / 2]
    | _ + 3 => ![(1 : ℚ) / 2, (1 : ℚ) / 2]
  simplices := fun s => if s = 0 then ![0, 1, 2] else ![3, 1, 2]
  find_unit := fun q => if q 0 + q 1 ≤ 1 / 2 then 0 else 1
  points_mem := by
    intro p d
    have hu : gEx.unit_maxes d = 1 / 2 := by
      fin_cases d <;> norm_num [gEx, GridWorld.unit_maxes, GridWorld.offset]
    rw [hu]
    rcases p with _ | _ | _ | p <;> fin_cases d <;> norm_num
  find_unit_mem := by
    intro p _
    beta_reduce
    by_cases h : p 0 + p 1 ≤ (1 : ℚ) / 2
    · rw [if_pos h]; norm_num
    · rw [if_neg h]; norm_num

/-- The concrete triangulation on `gEx` (with projection enabled). -/
def tEx : Triangulation 2 := ⟨gEx, refEx, true⟩

/-- Vertex values sampling the affine field `f (x, y) = x + 2 y` (the concrete
scenario of §8 of the spec). -/
def vEx : ℕ → ℚ := fun i => gEx.index_to_state i 0 + 2 * gEx.index_to_state i 1

/-- Vertex values sampling the affine field `f (x, y) = x`. -/
def vExA : ℕ → ℚ := fun i => gEx.index_to_state i 0

/-- The query point `(1/4, 1/4)` of the spec's concrete scenario. -/
def pEx : Fin 2 → ℚ := ![1 / 4, 1 / 4]

/-- A query point strictly inside unit simplex 0 of the bottom-left cell. -/
def pEx2 : Fin 2 → ℚ := ![1 / 10, 1 / 5]

/-- A query point outside the limits in dimension 0. -/
def pExOut : Fin 2 → ℚ := ![2, 1 / 4]

/-- A concrete 1-D grid (2 cells on `[0, 1]`, 3 vertices). -/
def gEx1 : GridWorld 1 := ⟨![((0 : ℚ), 1)], ![2], 1 / 1000⟩

/-- A 1-D query point. -/
def pEx1 : Fin 1 → ℚ := ![1 / 2]

/-!
Theorems.
-/

theorem prodFn_succ {n : ℕ} (s : Fin (n + 1) → ℕ) :
    prodFn s = s 0 * prodFn (fun i => s i.succ) := rfl

theorem prodFn_pos : ∀ {n : ℕ} (s : Fin n → ℕ), (∀ d, 0 < s d) → 0 < prodFn s
  | 0, _, _ => Nat.one_pos
  | _ + 1, s, h =>
    Nat.mul_pos (h 0) (prodFn_pos (fun i => s i.succ) (fun d => h d.succ))

theorem ravel_succ {n : ℕ} (s ix : Fin (n + 1) → ℕ) :
    ravel s ix =
      ix 0 * prodFn (fun i => s i.succ) + ravel (fun i => s i.succ) (fun i => ix i.succ) := rfl

theorem unravel_succ {n : ℕ} (s : Fin (n + 1) → ℕ) (x : ℕ) :
    unravel s x =
      Fin.cons (x / prodFn (fun i => s i.succ))
        (unravel (fun i => s i.succ) (x % prodFn (fun i => s i.succ))) := rfl

theorem ravel_lt : ∀ {n : ℕ} (s ix : Fin n → ℕ), (∀ d, ix d < s d) →
    ravel s ix < prodFn s
  | 0, _, _, _ => Nat.one_pos
  | n + 1, s, ix, h => by
    rw [ravel_succ, prodFn_succ]
    have htail := ravel_lt (fun i => s i.succ) (fun i => ix i.succ) (fun d => h d.succ)
    calc ix 0 * prodFn (fun i => s i.succ) + ravel (fun i => s i.succ) (fun i => ix i.succ)
        < (ix 0 + 1) * prodFn (fun i => s i.succ) := by
          rw [Nat.add_mul, Nat.one_mul]; omega
      _ ≤ s 0 * prodFn (fun i => s i.succ) :=
          Nat.mul_le_mul_right _ (h 0)

theorem unravel_lt : ∀ {n : ℕ} (s : Fin n → ℕ) (x : ℕ), x < prodFn s →
    ∀ d, unravel s x d < s d
  | 0, _, _, _, d => d.elim0
  | n + 1, s, x, hx, d => by
    rw [prodFn_succ] at hx
    have hP : 0 < prodFn (fun i => s i.succ) := by
      rcases Nat.eq_zero_or_pos (prodFn (fun i => s i.succ)) with h0 | h0
      · rw [h0, Nat.mul_zero] at hx; omega
      · exact h0
    rw [unravel_succ]
    refine Fin.cases ?_ ?_ d
    · rw [Fin.cons_zero]
      exact Nat.div_lt_of_lt_mul (by rw [Nat.mul_comm]; exact hx)
    · intro i
      rw [Fin.cons_succ]
      exact unravel_lt (fun i => s i.succ) _ (Nat.mod_lt _ hP) i

theorem unravel_ravel : ∀ {n : ℕ} (s ix : Fin n → ℕ), (∀ d, ix d < s d) →
    unravel s (ravel s ix) = ix
  | 0, _, ix, _ => funext fun i => i.elim0
  | n + 1, s, ix, h => by
    have htail := ravel_lt (fun i => s i.succ) (fun i => ix i.succ) (fun d => h d.succ)
    have hP : 0 < prodFn (fun i => s i.succ) := by omega
    rw [ravel_succ, unravel_succ]
    have hdiv : (ix 0 * prodFn (fun i => s i.succ) +
        ravel (fun i => s i.succ) (fun i => ix i.succ)) / prodFn (fun i => s i.succ) = ix 0 := by
      rw [Nat.mul_comm (ix 0), Nat.mul_add_div hP, Nat.div_eq_of_lt htail, Nat.add_zero]
    have hmod : (ix 0 * prodFn (fun i => s i.succ) +
        ravel (fun i => s i.succ) (fun i => ix i.succ)) % prodFn (fun i => s i.succ) =
        ravel (fun i => s i.succ) (fun i => ix i.succ) := by
      rw [Nat.mul_comm (ix 0), Nat.mul_add_mod, Nat.mod_eq_of_lt htail]
    rw [hdiv, hmod, unravel_ravel (fun i => s i.succ) (fun i => ix i.succ) (fun d => h d.succ)]
    funext d
    refine Fin.cases ?_ ?_ d
    · rw [Fin.cons_zero]
    · intro i; rw [Fin.cons_succ]

theorem ravel_unravel : ∀ {n : ℕ} (s : Fin n → ℕ) (x : ℕ), x < prodFn s →
    ravel s (unravel s x) = x
  | 0, _, x, hx => by
    have : x = 0 := by simpa [prodFn] using Nat.lt_one_iff.mp hx
    simp [ravel, this]
  | n + 1, s, x, hx => by
    rw [prodFn_succ] at hx
    have hP : 0 < prodFn (fun i => s i.succ) := by
      rcases Nat.eq_zero_or_pos (prodFn (fun i => s i.succ)) with h0 | h0
      · rw [h0, Nat.mul_zero] at hx; omega
      · exact h0
    rw [unravel_succ, ravel_succ, Fin.cons_zero]
    have htail : ∀ i : Fin n,
        (Fin.cons (α := fun _ => ℕ) (x / prodFn (fun i => s i.succ))
          (unravel (fun i => s i.succ) (x % prodFn (fun i => s i.succ)))) i.succ =
        unravel (fun i => s i.succ) (x % prodFn (fun i => s i.succ)) i :=
      fun i => Fin.cons_succ _ _ i
    have : ravel (fun i => s i.succ)
        (fun i => (Fin.cons (α := fun _ => ℕ) (x / prodFn (fun i => s i.succ))
          (unravel (fun i => s i.succ) (x % prodFn (fun i => s i.succ)))) i.succ) =
        ravel (fun i => s i.succ)
          (unravel (fun i => s i.succ) (x % prodFn (fun i => s i.succ))) := by
      exact congrArg _ (funext htail)
    rw [this, ravel_unravel (fun i => s i.succ) _ (Nat.mod_lt _ hP),
      Nat.mul_comm (x / prodFn (fun i => s i.succ))]
    exact Nat.div_add_mod x _

theorem ravel_add : ∀ {n : ℕ} (s a b : Fin n → ℕ),
    ravel s (fun d => a d + b d) = ravel s a + ravel s b
  | 0, _, _, _ => rfl
  | n + 1, s, a, b => by
    rw [ravel_succ, ravel_succ, ravel_succ,
      ravel_add (fun i => s i.succ) (fun i => a i.succ) (fun i => b i.succ)]
    ring

theorem ravelI_natCast : ∀ {n : ℕ} (s : Fin n → ℕ) (ix : Fin n → ℕ),
    ravelI s (fun d => (ix d : ℤ)) = (ravel s ix : ℤ)
  | 0, _, _ => rfl
  | n + 1, s, ix => by
    have := ravelI_natCast (fun i => s i.succ) (fun i => ix i.succ)
    simp only [ravelI, ravel_succ, this]
    push_cast
    ring

theorem rint_intCast (m : ℤ) : rint (m : ℚ) = m := by
  simp [rint]

theorem rint_natCast (m : ℕ) : rint (m : ℚ) = m := by
  have : ((m : ℤ) : ℚ) = (m : ℚ) := by push_cast; ring
  rw [← this, rint_intCast]

theorem clip_eq_self {lo hi x : ℚ} (h1 : lo ≤ x) (h2 : x ≤ hi) : clip lo hi x = x := by
  rw [clip, max_eq_left h1, min_eq_left h2]

theorem clip_clip {a b c d : ℚ} (hca : c ≤ a) (hbd : b ≤ d) (x : ℚ) :
    clip a b (clip c d x) = clip a b x := by
  unfold clip
  rcases le_total x c with h1 | h1
  · rw [max_eq_right h1, max_eq_right (le_trans (min_le_left c d) hca),
      max_eq_right (le_trans h1 hca)]
  · rw [max_eq_left h1]
    rcases le_total x d with h2 | h2
    · rw [min_eq_left h2]
    · rw [min_eq_right h2, min_eq_right (le_trans hbd (le_max_left d a)),
        min_eq_right (le_trans (le_trans hbd h2) (le_max_left x a))]

theorem clip_sub (lo hi x o : ℚ) : clip lo hi x - o = clip (lo - o) (hi - o) (x - o) := by
  unfold clip
  rw [← min_sub_sub_right, ← max_sub_sub_right]

theorem qmod_nonneg (x : ℚ) {u : ℚ} (hu : 0 < u) : 0 ≤ qmod x u := by
  rw [qmod, sub_nonneg]
  calc (⌊x / u⌋ : ℚ) * u ≤ x / u * u :=
        mul_le_mul_of_nonneg_right (Int.floor_le _) (le_of_lt hu)
    _ = x := div_mul_cancel₀ x (ne_of_gt hu)

theorem qmod_lt (x : ℚ) {u : ℚ} (hu : 0 < u) : qmod x u < u := by
  rw [qmod, sub_lt_iff_lt_add]
  have h := Int.lt_floor_add_one (x / u)
  calc x = x / u * u := (div_mul_cancel₀ x (ne_of_gt hu)).symm
    _ < ((⌊x / u⌋ : ℚ) + 1) * u := by
        exact mul_lt_mul_of_pos_right h hu
    _ = u + (⌊x / u⌋ : ℚ) * u := by ring

theorem GridWorld.unit_maxes_pos {g : GridWorld n} (hv : g.valid) (d : Fin n) :
    0 < g.unit_maxes d := by
  have h1 := (hv d).1
  have h2 := (hv d).2
  apply div_pos
  · rw [GridWorld.offset]; linarith
  · exact_mod_cast h2

theorem GridWorld.extent_eq (g : GridWorld n) (d : Fin n) (h : 0 < g.num_points d) :
    g.extent d = (g.num_points d : ℚ) * g.unit_maxes d := by
  simp only [GridWorld.extent, GridWorld.unit_maxes]
  rw [mul_div_cancel₀]
  exact_mod_cast Nat.pos_iff_ne_zero.mp h

theorem GridWorld.center_states_mem {g : GridWorld n} (hv : g.valid) (he : g.eps_ok)
    (s : Fin n → ℚ) (d : Fin n) :
    0 < g.center_states true s d ∧ g.center_states true s d < g.extent d := by
  have h1 : 0 < g.eps := he.1
  have h2 : 2 * g.eps < g.extent d := he.2 d
  unfold GridWorld.center_states
  rw [if_pos rfl]
  unfold clip
  constructor
  · apply lt_min
    · exact lt_of_lt_of_le (by linarith) (le_max_right _ _)
    · linarith
  · exact lt_of_le_of_lt (min_le_right _ _) (by linarith)

theorem GridWorld.center_floor_range {g : GridWorld n} (hv : g.valid) (he : g.eps_ok)
    (s : Fin n → ℚ) (d : Fin n) :
    0 ≤ ⌊g.center_states true s d / g.unit_maxes d⌋ ∧
      ⌊g.center_states true s d / g.unit_maxes d⌋ < (g.num_points d : ℤ) := by
  have hu := GridWorld.unit_maxes_pos hv d
  obtain ⟨hc0, hc1⟩ := GridWorld.center_states_mem hv he s d
  constructor
  · exact Int.floor_nonneg.mpr (le_of_lt (div_pos hc0 hu))
  · rw [Int.floor_lt]
    push_cast
    rw [div_lt_iff hu]
    rw [GridWorld.extent_eq g d (hv d).2] at hc1
    linarith

theorem GridWorld.state_to_rectangle_true {g : GridWorld n} (s : Fin n → ℚ) :
    g.state_to_rectangle true s = g.state_to_rectangle false (g.center_states true s) := by
  unfold GridWorld.state_to_rectangle
  rw [if_pos rfl, if_neg (by simp)]

theorem GridWorld.state_to_rectangle_lt {g : GridWorld n} (hv : g.valid) (he : g.eps_ok)
    (s : Fin n → ℚ) :
    g.state_to_rectangle false (g.center_states true s) < g.nrectangles := by
  unfold GridWorld.state_to_rectangle GridWorld.nrectangles
  rw [if_neg (by simp)]
  apply ravel_lt
  intro d
  have h := GridWorld.center_floor_range hv he s d
  omega

theorem GridWorld.state_to_index_round_trip {g : GridWorld n} (hv : g.valid)
    (v : ℕ) (hvlt : v < g.nindex) :
    g.state_to_index (g.index_to_state v) = (v : ℤ) := by
  unfold GridWorld.nindex at hvlt
  have hcomp : ∀ d, rint ((clip ((g.limits d).1) ((g.limits d).2)
      (g.index_to_state v d) - g.offset d) / g.unit_maxes d) =
      ((unravel (fun e => g.num_points e + 1) v d : ℕ) : ℤ) := by
    intro d
    have hu := GridWorld.unit_maxes_pos hv d
    have hmlt := unravel_lt (fun e => g.num_points e + 1) v hvlt d
    have hmle : unravel (fun e => g.num_points e + 1) v d ≤ g.num_points d := by omega
    have hclip : clip ((g.limits d).1) ((g.limits d).2) (g.index_to_state v d) =
        g.index_to_state v d := by
      apply clip_eq_self
      · unfold GridWorld.index_to_state
        have h0 : (0 : ℚ) ≤ (unravel (fun e => g.num_points e + 1) v d : ℚ) *
            g.unit_maxes d :=
          mul_nonneg (Nat.cast_nonneg _) (le_of_lt hu)
        unfold GridWorld.offset
        linarith
      · unfold GridWorld.index_to_state
        have h1 : (unravel (fun e => g.num_points e + 1) v d : ℚ) * g.unit_maxes d ≤
            (g.num_points d : ℚ) * g.unit_maxes d :=
          mul_le_mul_of_nonneg_right (by exact_mod_cast hmle) (le_of_lt hu)
        have h2 := GridWorld.extent_eq g d (hv d).2
        unfold GridWorld.extent at h2
        unfold GridWorld.offset at h2 ⊢
        linarith
    rw [hclip]
    unfold GridWorld.index_to_state
    have harg : ((unravel (fun e => g.num_points e + 1) v d : ℚ) * g.unit_maxes d +
        g.offset d - g.offset d) / g.unit_maxes d =
        (unravel (fun e => g.num_points e + 1) v d : ℚ) := by
      field_simp
    rw [harg, rint_natCast]
  calc g.state_to_index (g.index_to_state v)
      = ravelI (fun d => g.num_points d + 1)
          (fun d => ((unravel (fun e => g.num_points e + 1) v d : ℕ) : ℤ)) := by
        unfold GridWorld.state_to_index
        exact congrArg _ (funext hcomp)
    _ = ((ravel (fun d => g.num_points d + 1)
          (unravel (fun e => g.num_points e + 1) v) : ℕ) : ℤ) := ravelI_natCast _ _
    _ = (v : ℤ) := by rw [ravel_unravel _ v hvlt]

theorem GridWorld.index_to_state_mem {g : GridWorld n} (hv : g.valid)
    {i : ℕ} (hi : i < g.nindex) (d : Fin n) :
    (g.limits d).1 ≤ g.index_to_state i d ∧ g.index_to_state i d ≤ (g.limits d).2 := by
  unfold GridWorld.nindex at hi
  have hu := GridWorld.unit_maxes_pos hv d
  have hmlt := unravel_lt (fun e => g.num_points e + 1) i hi d
  have hmle : unravel (fun e => g.num_points e + 1) i d ≤ g.num_points d := by omega
  unfold GridWorld.index_to_state
  constructor
  · have h0 : (0 : ℚ) ≤ (unravel (fun e => g.num_points e + 1) i d : ℚ) *
        g.unit_maxes d :=
      mul_nonneg (Nat.cast_nonneg _) (le_of_lt hu)
    unfold GridWorld.offset
    linarith
  · have h1 : (unravel (fun e => g.num_points e + 1) i d : ℚ) * g.unit_maxes d ≤
        (g.num_points d : ℚ) * g.unit_maxes d :=
      mul_le_mul_of_nonneg_right (by exact_mod_cast hmle) (le_of_lt hu)
    have h2 := GridWorld.extent_eq g d (hv d).2
    unfold GridWorld.extent at h2
    unfold GridWorld.offset at h2 ⊢
    linarith

theorem matInv_mul {A : Matrix (Fin n) (Fin n) ℚ} (h : A.det ≠ 0) :
    matInv A * A = 1 := by
  unfold matInv
  rw [Matrix.smul_mul, Matrix.adjugate_mul, smul_smul, inv_mul_cancel₀ h, one_smul]

theorem mul_matInv {A : Matrix (Fin n) (Fin n) ℚ} (h : A.det ≠ 0) :
    A * matInv A = 1 := by
  unfold matInv
  rw [Matrix.mul_smul, Matrix.mul_adjugate, smul_smul, inv_mul_cancel₀ h, one_smul]

theorem Triangulation.unit_simplices_eq {t : Triangulation n}
    (hv : t.toGridWorld.valid) (s : ℕ) (i : Fin (n + 1)) :
    t.unit_simplices s i = ravel (fun d => t.toGridWorld.num_points d + 1)
      (fun d => if t.triangulation.points (t.triangulation.simplices s i) d = 0
        then 0 else 1) := by
  unfold Triangulation.unit_simplices GridWorld.state_to_index
  have hcomp : ∀ d, rint ((clip ((t.toGridWorld.limits d).1) ((t.toGridWorld.limits d).2)
      (t.triangulation.points (t.triangulation.simplices s i) d +
        t.toGridWorld.offset d) - t.toGridWorld.offset d) / t.toGridWorld.unit_maxes d) =
      (((if t.triangulation.points (t.triangulation.simplices s i) d = 0
        then 0 else 1 : ℕ) : ℤ)) := by
    intro d
    have hu := GridWorld.unit_maxes_pos hv d
    have hnp := (hv d).2
    have hext := GridWorld.extent_eq t.toGridWorld d hnp
    have hule : t.toGridWorld.unit_maxes d ≤ t.toGridWorld.extent d := by
      rw [hext]
      have h1 : (1 : ℚ) ≤ (t.toGridWorld.num_points d : ℚ) := by exact_mod_cast hnp
      nlinarith
    rcases t.triangulation.points_mem (t.triangulation.simplices s i) d with hc | hc
    · rw [hc, if_pos rfl]
      have hclip : clip ((t.toGridWorld.limits d).1) ((t.toGridWorld.limits d).2)
          (0 + t.toGridWorld.offset d) = t.toGridWorld.offset d := by
        rw [zero_add]
        apply clip_eq_self
        · exact le_of_eq rfl
        · exact le_of_lt (hv d).1
      rw [hclip]
      have : (t.toGridWorld.offset d - t.toGridWorld.offset d) /
          t.toGridWorld.unit_maxes d = ((0 : ℕ) : ℚ) := by
        simp
      rw [this, rint_natCast]
    · have hc0 : t.triangulation.points (t.triangulation.simplices s i) d ≠ 0 := by
        rw [hc]; exact ne_of_gt hu
      rw [if_neg hc0, hc]
      have hclip : clip ((t.toGridWorld.limits d).1) ((t.toGridWorld.limits d).2)
          (t.toGridWorld.unit_maxes d + t.toGridWorld.offset d) =
          t.toGridWorld.unit_maxes d + t.toGridWorld.offset d := by
        apply clip_eq_self
        · unfold GridWorld.offset
          linarith
        · unfold GridWorld.extent at hule
          unfold GridWorld.offset at hule ⊢
          linarith
      rw [hclip]
      have : (t.toGridWorld.unit_maxes d + t.toGridWorld.offset d -
          t.toGridWorld.offset d) / t.toGridWorld.unit_maxes d = ((1 : ℕ) : ℚ) := by
        push_cast
        field_simp
      rw [this, rint_natCast]
  rw [congrArg (ravelI (fun d => t.toGridWorld.num_points d + 1)) (funext hcomp),
    ravelI_natCast, Int.toNat_natCast]

theorem Triangulation.unit_multi_le {t : Triangulation n}
    (hv : t.toGridWorld.valid) (s : ℕ) (i : Fin (n + 1)) (d : Fin n) :
    unravel (fun e => t.toGridWorld.num_points e + 1) (t.unit_simplices s i) d ≤ 1 := by
  rw [Triangulation.unit_simplices_eq hv s i]
  rw [unravel_ravel]
  · split <;> omega
  · intro e
    have := (hv e).2
    split <;> omega

theorem Triangulation.find_simplex_range {t : Triangulation n}
    (hv : t.toGridWorld.valid) (he : t.toGridWorld.eps_ok) (p : Fin n → ℚ) :
    0 ≤ t.find_simplex p ∧ t.find_simplex p < (t.nsimplex : ℤ) := by
  unfold Triangulation.find_simplex
  have hunit : ∀ d, 0 ≤ qmod (t.toGridWorld.center_states true p d)
      (t.toGridWorld.unit_maxes d) ∧
      qmod (t.toGridWorld.center_states true p d) (t.toGridWorld.unit_maxes d) ≤
        t.toGridWorld.unit_maxes d := by
    intro d
    have hu := GridWorld.unit_maxes_pos hv d
    exact ⟨qmod_nonneg _ hu, le_of_lt (qmod_lt _ hu)⟩
  obtain ⟨hs0, hs1⟩ := t.triangulation.find_unit_mem _ hunit
  have hrect := GridWorld.state_to_rectangle_lt hv he p
  have hK : (0 : ℤ) ≤ (t.triangulation.nsimplex : ℤ) := Int.natCast_nonneg _
  have hr0 : (0 : ℤ) ≤ (t.toGridWorld.state_to_rectangle false
      (t.toGridWorld.center_states true p) : ℤ) := Int.natCast_nonneg _
  constructor
  · have := mul_nonneg hr0 hK
    linarith
  · have hexp : ((t.toGridWorld.state_to_rectangle false
        (t.toGridWorld.center_states true p) : ℤ) + 1) * (t.triangulation.nsimplex : ℤ) =
        (t.toGridWorld.state_to_rectangle false
          (t.toGridWorld.center_states true p) : ℤ) * (t.triangulation.nsimplex : ℤ) +
          (t.triangulation.nsimplex : ℤ) := by ring
    have hle : ((t.toGridWorld.state_to_rectangle false
        (t.toGridWorld.center_states true p) : ℤ) + 1) ≤
        (t.toGridWorld.nrectangles : ℤ) := by exact_mod_cast hrect
    have h2 := mul_le_mul_of_nonneg_right hle hK
    unfold Triangulation.nsimplex
    push_cast
    have hcomm : (t.toGridWorld.nrectangles : ℤ) * (t.triangulation.nsimplex : ℤ) =
        (t.triangulation.nsimplex : ℤ) * (t.toGridWorld.nrectangles : ℤ) := mul_comm _ _
    linarith [hs1, h2, hexp]

theorem Triangulation.simplices_spec {t : Triangulation n} (hv : t.toGridWorld.valid)
    {idx : ℤ} (h0 : 0 ≤ idx) (h1 : idx < (t.nsimplex : ℤ)) :
    (∀ i, t.simplices idx i < t.toGridWorld.nindex) ∧
    (∀ i d, t.toGridWorld.index_to_state (t.simplices idx i) d =
      t.toGridWorld.index_to_state (t.unit_simplices (t.unit_id idx) i) d +
        (unravel t.toGridWorld.num_points
          ((idx / (t.triangulation.nsimplex : ℤ)).toNat) d : ℚ) *
          t.toGridWorld.unit_maxes d) := by
  have hKpos : 0 < t.triangulation.nsimplex := by
    rcases Nat.eq_zero_or_pos t.triangulation.nsimplex with h | h
    · exfalso
      unfold Triangulation.nsimplex at h1
      rw [h] at h1
      simp at h1
      omega
    · exact h
  have hRpos : 0 < t.toGridWorld.nrectangles := by
    rcases Nat.eq_zero_or_pos t.toGridWorld.nrectangles with h | h
    · exfalso
      unfold Triangulation.nsimplex at h1
      rw [h] at h1
      simp at h1
      omega
    · exact h
  have hrr : (idx / (t.triangulation.nsimplex : ℤ)).toNat <
      t.toGridWorld.nrectangles := by
    have hdiv : idx / (t.triangulation.nsimplex : ℤ) <
        (t.toGridWorld.nrectangles : ℤ) := by
      rw [Int.ediv_lt_iff_lt_mul (by exact_mod_cast hKpos)]
      unfold Triangulation.nsimplex at h1
      push_cast at h1 ⊢
      linarith
    rw [Int.toNat_lt' (Nat.pos_iff_ne_zero.mp hRpos)]
    exact hdiv
  have hbits : ∀ i : Fin (n + 1), ∃ bz : Fin n → ℕ, (∀ d, bz d ≤ 1) ∧
      t.unit_simplices (t.unit_id idx) i =
        ravel (fun d => t.toGridWorld.num_points d + 1) bz := by
    intro i
    exact ⟨fun d => if t.triangulation.points
      (t.triangulation.simplices (t.unit_id idx) i) d = 0 then 0 else 1,
      fun d => by beta_reduce; split <;> omega,
      Triangulation.unit_simplices_eq hv _ i⟩
  have hmr : ∀ d, unravel t.toGridWorld.num_points
      ((idx / (t.triangulation.nsimplex : ℤ)).toNat) d <
      t.toGridWorld.num_points d := by
    intro d
    exact unravel_lt _ _ hrr d
  constructor
  · intro i
    obtain ⟨bz, hbz, hAeq⟩ := hbits i
    unfold Triangulation.simplices GridWorld.rectangle_corner_index
    rw [hAeq, ← ravel_add]
    unfold GridWorld.nindex
    apply ravel_lt
    intro d
    have := hbz d
    have := hmr d
    have := (hv d).2
    omega
  · intro i d
    obtain ⟨bz, hbz, hAeq⟩ := hbits i
    have hsum : t.simplices idx i = ravel (fun e => t.toGridWorld.num_points e + 1)
        (fun e => bz e + unravel t.toGridWorld.num_points
          ((idx / (t.triangulation.nsimplex : ℤ)).toNat) e) := by
      unfold Triangulation.simplices GridWorld.rectangle_corner_index
      rw [hAeq, ← ravel_add]
    have hin : ∀ e, bz e + unravel t.toGridWorld.num_points
        ((idx / (t.triangulation.nsimplex : ℤ)).toNat) e <
        t.toGridWorld.num_points e + 1 := by
      intro e
      have := hbz e
      have := hmr e
      omega
    have hbzin : ∀ e, bz e < t.toGridWorld.num_points e + 1 := by
      intro e
      have := hbz e
      have := (hv e).2
      omega
    unfold GridWorld.index_to_state
    rw [hsum, unravel_ravel _ _ hin, hAeq, unravel_ravel _ _ hbzin]
    push_cast
    ring

theorem Triangulation.simplices_edges_eq {t : Triangulation n} (hv : t.toGridWorld.valid)
    {idx : ℤ} (h0 : 0 ≤ idx) (h1 : idx < (t.nsimplex : ℤ)) (i : Fin n) (d : Fin n) :
    t.toGridWorld.index_to_state (t.simplices idx i.succ) d -
      t.toGridWorld.index_to_state (t.simplices idx 0) d =
      t.simplex_edges (t.unit_id idx) i d := by
  obtain ⟨-, htr⟩ := Triangulation.simplices_spec hv h0 h1
  rw [htr i.succ d, htr 0 d]
  unfold Triangulation.simplex_edges
  rw [Matrix.of_apply]
  ring

theorem bary_sum (H E : Matrix (Fin n) (Fin n) ℚ) (hHE : H * E = 1)
    (dl : Fin n → ℚ) (d : Fin n) :
    (∑ k, (∑ j, dl j * H j k) * E k d) = dl d := by
  calc ∑ k, (∑ j, dl j * H j k) * E k d
      = ∑ k, ∑ j, dl j * H j k * E k d := by
        refine Finset.sum_congr rfl fun k _ => ?_
        rw [Finset.sum_mul]
    _ = ∑ j, ∑ k, dl j * H j k * E k d := Finset.sum_comm
    _ = ∑ j, dl j * ∑ k, H j k * E k d := by
        refine Finset.sum_congr rfl fun j _ => ?_
        rw [Finset.mul_sum]
        refine Finset.sum_congr rfl fun k _ => ?_
        ring
    _ = ∑ j, dl j * (H * E) j d := by
        refine Finset.sum_congr rfl fun j _ => ?_
        rw [Matrix.mul_apply]
    _ = ∑ j, dl j * (1 : Matrix (Fin n) (Fin n) ℚ) j d := by rw [hHE]
    _ = dl d := by
        simp [Matrix.one_apply]

theorem bary_unique (H E : Matrix (Fin n) (Fin n) ℚ) (hEH : E * H = 1)
    (lt dl : Fin n → ℚ) (h : ∀ d, (∑ k, lt k * E k d) = dl d) (m : Fin n) :
    lt m = ∑ j, dl j * H j m := by
  calc lt m = ∑ k, lt k * (1 : Matrix (Fin n) (Fin n) ℚ) k m := by
        simp [Matrix.one_apply]
    _ = ∑ k, lt k * (E * H) k m := by rw [hEH]
    _ = ∑ k, ∑ j, lt k * E k j * H j m := by
        refine Finset.sum_congr rfl fun k _ => ?_
        rw [Matrix.mul_apply, Finset.mul_sum]
        refine Finset.sum_congr rfl fun j _ => ?_
        ring
    _ = ∑ j, ∑ k, lt k * E k j * H j m := Finset.sum_comm
    _ = ∑ j, (∑ k, lt k * E k j) * H j m := by
        refine Finset.sum_congr rfl fun j _ => ?_
        rw [Finset.sum_mul]
    _ = ∑ j, dl j * H j m := by
        refine Finset.sum_congr rfl fun j _ => ?_
        rw [h j]

theorem grad_sum (H E : Matrix (Fin n) (Fin n) ℚ) (hHE : H * E = 1)
    (a : Fin n → ℚ) (d : Fin n) :
    (∑ k, H d k * (∑ c, a c * E k c)) = a d := by
  calc ∑ k, H d k * (∑ c, a c * E k c)
      = ∑ k, ∑ c, a c * (H d k * E k c) := by
        refine Finset.sum_congr rfl fun k _ => ?_
        rw [Finset.mul_sum]
        refine Finset.sum_congr rfl fun c _ => ?_
        ring
    _ = ∑ c, ∑ k, a c * (H d k * E k c) := Finset.sum_comm
    _ = ∑ c, a c * (H * E) d c := by
        refine Finset.sum_congr rfl fun c _ => ?_
        rw [Matrix.mul_apply, Finset.mul_sum]
    _ = ∑ c, a c * (1 : Matrix (Fin n) (Fin n) ℚ) d c := by rw [hHE]
    _ = a d := by
        simp [Matrix.one_apply]

theorem Triangulation.get_weights_def (t : Triangulation n) (p : Fin n → ℚ) :
    t.get_weights p = Fin.cons
      (1 - ∑ k, ∑ j, (t.get_weights_point p j -
        t.toGridWorld.index_to_state (t.simplices (t.find_simplex p) 0) j) *
        t.hyperplanes (t.unit_id (t.find_simplex p)) j k)
      (fun k => ∑ j, (t.get_weights_point p j -
        t.toGridWorld.index_to_state (t.simplices (t.find_simplex p) 0) j) *
        t.hyperplanes (t.unit_id (t.find_simplex p)) j k) := rfl

theorem Triangulation.weights_sum (t : Triangulation n) (p : Fin n → ℚ) :
    (∑ i, t.get_weights p i) = 1 := by
  rw [Triangulation.get_weights_def, Fin.sum_cons]
  ring

theorem Triangulation.unit_id_lt {t : Triangulation n}
    {idx : ℤ} (h0 : 0 ≤ idx) (h1 : idx < (t.nsimplex : ℤ)) :
    t.unit_id idx < t.triangulation.nsimplex := by
  have hKpos : 0 < t.triangulation.nsimplex := by
    rcases Nat.eq_zero_or_pos t.triangulation.nsimplex with h | h
    · exfalso
      unfold Triangulation.nsimplex at h1
      rw [h] at h1
      simp at h1
      omega
    · exact h
  unfold Triangulation.unit_id
  rw [Int.toNat_lt' (Nat.pos_iff_ne_zero.mp hKpos)]
  exact Int.emod_lt_of_pos _ (by exact_mod_cast hKpos)

theorem Triangulation.weights_interpolate {t : Triangulation n}
    (hv : t.toGridWorld.valid) (he : t.toGridWorld.eps_ok)
    (hdet : ∀ s, s < t.triangulation.nsimplex → (t.simplex_edges s).det ≠ 0)
    (p : Fin n → ℚ) (d : Fin n) :
    (∑ i, t.get_weights p i *
      t.toGridWorld.index_to_state (t.simplices (t.find_simplex p) i) d) =
      t.get_weights_point p d := by
  obtain ⟨h0, h1⟩ := Triangulation.find_simplex_range hv he p
  have huid := Triangulation.unit_id_lt (t := t) h0 h1
  have hHE : t.hyperplanes (t.unit_id (t.find_simplex p)) *
      t.simplex_edges (t.unit_id (t.find_simplex p)) = 1 := by
    unfold Triangulation.hyperplanes
    exact matInv_mul (hdet _ huid)
  rw [Triangulation.get_weights_def, Fin.sum_univ_succ]
  simp only [Fin.cons_zero, Fin.cons_succ]
  have hbary := bary_sum _ _ hHE
    (fun j => t.get_weights_point p j -
      t.toGridWorld.index_to_state (t.simplices (t.find_simplex p) 0) j) d
  have hedge : ∀ k : Fin n,
      t.toGridWorld.index_to_state (t.simplices (t.find_simplex p) k.succ) d =
      t.simplex_edges (t.unit_id (t.find_simplex p)) k d +
        t.toGridWorld.index_to_state (t.simplices (t.find_simplex p) 0) d := by
    intro k
    have h := Triangulation.simplices_edges_eq hv h0 h1 k d
    linarith
  have hsplit : (∑ k : Fin n, (∑ j, (t.get_weights_point p j -
        t.toGridWorld.index_to_state (t.simplices (t.find_simplex p) 0) j) *
        t.hyperplanes (t.unit_id (t.find_simplex p)) j k) *
        t.toGridWorld.index_to_state (t.simplices (t.find_simplex p) k.succ) d) =
      (∑ k : Fin n, (∑ j, (t.get_weights_point p j -
        t.toGridWorld.index_to_state (t.simplices (t.find_simplex p) 0) j) *
        t.hyperplanes (t.unit_id (t.find_simplex p)) j k) *
        t.simplex_edges (t.unit_id (t.find_simplex p)) k d) +
      (∑ k : Fin n, (∑ j, (t.get_weights_point p j -
        t.toGridWorld.index_to_state (t.simplices (t.find_simplex p) 0) j) *
        t.hyperplanes (t.unit_id (t.find_simplex p)) j k)) *
        t.toGridWorld.index_to_state (t.simplices (t.find_simplex p) 0) d := by
    rw [Finset.sum_mul, ← Finset.sum_add_distrib]
    refine Finset.sum_congr rfl fun k _ => ?_
    rw [hedge k]
    ring
  rw [hsplit, hbary]
  ring

theorem Triangulation.weights_unique {t : Triangulation n}
    (hv : t.toGridWorld.valid) (he : t.toGridWorld.eps_ok)
    (hdet : ∀ s, s < t.triangulation.nsimplex → (t.simplex_edges s).det ≠ 0)
    (p : Fin n → ℚ) (lam : Fin (n + 1) → ℚ)
    (hsum : (∑ i, lam i) = 1)
    (hcomb : ∀ d, (∑ i, lam i *
      t.toGridWorld.index_to_state (t.simplices (t.find_simplex p) i) d) =
      t.get_weights_point p d) :
    ∀ i, lam i = t.get_weights p i := by
  obtain ⟨h0, h1⟩ := Triangulation.find_simplex_range hv he p
  have huid := Triangulation.unit_id_lt (t := t) h0 h1
  have hEH : t.simplex_edges (t.unit_id (t.find_simplex p)) *
      t.hyperplanes (t.unit_id (t.find_simplex p)) = 1 := by
    unfold Triangulation.hyperplanes
    exact mul_matInv (hdet _ huid)
  have hedge : ∀ (k : Fin n) (d : Fin n),
      t.toGridWorld.index_to_state (t.simplices (t.find_simplex p) k.succ) d =
      t.simplex_edges (t.unit_id (t.find_simplex p)) k d +
        t.toGridWorld.index_to_state (t.simplices (t.find_simplex p) 0) d := by
    intro k d
    have h := Triangulation.simplices_edges_eq hv h0 h1 k d
    linarith
  have hsum' : lam 0 + (∑ k : Fin n, lam k.succ) = 1 := by
    rw [← Fin.sum_univ_succ (f := lam)]
    exact hsum
  have htail : ∀ d, (∑ k : Fin n, lam k.succ *
      t.simplex_edges (t.unit_id (t.find_simplex p)) k d) =
      t.get_weights_point p d -
        t.toGridWorld.index_to_state (t.simplices (t.find_simplex p) 0) d := by
    intro d
    have hexp := hcomb d
    rw [Fin.sum_univ_succ] at hexp
    have hstep : (∑ k : Fin n, lam k.succ *
        t.simplex_edges (t.unit_id (t.find_simplex p)) k d) =
        (∑ k : Fin n, lam k.succ *
          t.toGridWorld.index_to_state (t.simplices (t.find_simplex p) k.succ) d) -
        (∑ k : Fin n, lam k.succ) *
          t.toGridWorld.index_to_state (t.simplices (t.find_simplex p) 0) d := by
      rw [Finset.sum_mul, ← Finset.sum_sub_distrib]
      refine Finset.sum_congr rfl fun k _ => ?_
      rw [hedge k d]
      ring
    rw [hstep]
    linear_combination hexp -
      (t.toGridWorld.index_to_state (t.simplices (t.find_simplex p) 0) d) * hsum'
  have hk : ∀ k : Fin n, lam k.succ = ∑ j, (t.get_weights_point p j -
      t.toGridWorld.index_to_state (t.simplices (t.find_simplex p) 0) j) *
      t.hyperplanes (t.unit_id (t.find_simplex p)) j k :=
    bary_unique _ _ hEH (fun k => lam k.succ)
      (fun j => t.get_weights_point p j -
        t.toGridWorld.index_to_state (t.simplices (t.find_simplex p) 0) j) htail
  intro i
  refine Fin.cases ?_ ?_ i
  · rw [Triangulation.get_weights_def, Fin.cons_zero]
    have h1' : lam 0 = 1 - ∑ k : Fin n, lam k.succ := by linarith
    rw [h1']
    have : (∑ k : Fin n, lam k.succ) = ∑ k : Fin n, ∑ j,
        (t.get_weights_point p j -
          t.toGridWorld.index_to_state (t.simplices (t.find_simplex p) 0) j) *
          t.hyperplanes (t.unit_id (t.find_simplex p)) j k :=
      Finset.sum_congr rfl fun k _ => hk k
    rw [this]
  · intro k
    rw [Triangulation.get_weights_def, Fin.cons_succ]
    exact hk k

theorem Triangulation.gradient_weights_def (t : Triangulation n) (p : Fin n → ℚ)
    (d : Fin n) :
    t.get_weights_gradient p d = Fin.cons
      (- ∑ k, t.hyperplanes (t.unit_id (t.find_simplex p)) d k)
      (fun k => t.hyperplanes (t.unit_id (t.find_simplex p)) d k) := rfl

theorem Triangulation.gradient_affine {t : Triangulation n}
    (hv : t.toGridWorld.valid) (he : t.toGridWorld.eps_ok)
    (hdet : ∀ s, s < t.triangulation.nsimplex → (t.simplex_edges s).det ≠ 0)
    (a : Fin n → ℚ) (b : ℚ) (v : ℕ → ℚ)
    (hval : ∀ i, i < t.toGridWorld.nindex →
      v i = (∑ c, a c * t.toGridWorld.index_to_state i c) + b)
    (p : Fin n → ℚ) (d : Fin n) :
    t.gradient v p d = a d := by
  obtain ⟨h0, h1⟩ := Triangulation.find_simplex_range hv he p
  have huid := Triangulation.unit_id_lt (t := t) h0 h1
  have hHE : t.hyperplanes (t.unit_id (t.find_simplex p)) *
      t.simplex_edges (t.unit_id (t.find_simplex p)) = 1 := by
    unfold Triangulation.hyperplanes
    exact matInv_mul (hdet _ huid)
  have hlt := (Triangulation.simplices_spec hv h0 h1).1
  have hvert : ∀ i : Fin (n + 1), v (t.simplices (t.find_simplex p) i) =
      (∑ c, a c * t.toGridWorld.index_to_state (t.simplices (t.find_simplex p) i) c) +
        b := fun i => hval _ (hlt i)
  have hedge : ∀ (k : Fin n) (c : Fin n),
      t.toGridWorld.index_to_state (t.simplices (t.find_simplex p) k.succ) c =
      t.simplex_edges (t.unit_id (t.find_simplex p)) k c +
        t.toGridWorld.index_to_state (t.simplices (t.find_simplex p) 0) c := by
    intro k c
    have h := Triangulation.simplices_edges_eq hv h0 h1 k c
    linarith
  unfold Triangulation.gradient
  rw [Fin.sum_univ_succ]
  simp only [Triangulation.gradient_weights_def, Fin.cons_zero, Fin.cons_succ]
  rw [hvert 0]
  have hsplit : (∑ k : Fin n, t.hyperplanes (t.unit_id (t.find_simplex p)) d k *
      v (t.simplices (t.find_simplex p) k.succ)) =
      (∑ k : Fin n, t.hyperplanes (t.unit_id (t.find_simplex p)) d k *
        (∑ c, a c * t.simplex_edges (t.unit_id (t.find_simplex p)) k c)) +
      (∑ k : Fin n, t.hyperplanes (t.unit_id (t.find_simplex p)) d k) *
        ((∑ c, a c * t.toGridWorld.index_to_state
          (t.simplices (t.find_simplex p) 0) c) + b) := by
    rw [Finset.sum_mul, ← Finset.sum_add_distrib]
    refine Finset.sum_congr rfl fun k _ => ?_
    rw [hvert k.succ]
    have hc : (∑ c, a c * t.toGridWorld.index_to_state
        (t.simplices (t.find_simplex p) k.succ) c) =
        (∑ c, a c * t.simplex_edges (t.unit_id (t.find_simplex p)) k c) +
        (∑ c, a c * t.toGridWorld.index_to_state
          (t.simplices (t.find_simplex p) 0) c) := by
      rw [← Finset.sum_add_distrib]
      refine Finset.sum_congr rfl fun c _ => ?_
      rw [hedge k c]
      ring
    rw [hc]
    ring
  rw [hsplit, grad_sum _ _ hHE a d]
  ring

theorem Triangulation.get_weights_point_eq_self {t : Triangulation n} {p : Fin n → ℚ}
    (hdom : ∀ d, (t.toGridWorld.limits d).1 ≤ p d ∧ p d ≤ (t.toGridWorld.limits d).2) :
    t.get_weights_point p = p := by
  funext d
  unfold Triangulation.get_weights_point
  split
  · exact clip_eq_self (hdom d).1 (hdom d).2
  · rfl

theorem Triangulation.evaluate_interpolates {t : Triangulation n}
    (hv : t.toGridWorld.valid) (he : t.toGridWorld.eps_ok)
    (hdet : ∀ s, s < t.triangulation.nsimplex → (t.simplex_edges s).det ≠ 0)
    (a : Fin n → ℚ) (b : ℚ) (v : ℕ → ℚ)
    (hval : ∀ i, i < t.toGridWorld.nindex →
      v i = (∑ c, a c * t.toGridWorld.index_to_state i c) + b)
    (p : Fin n → ℚ) :
    t.evaluate v p = (∑ c, a c * t.get_weights_point p c) + b := by
  obtain ⟨h0, h1⟩ := Triangulation.find_simplex_range hv he p
  have hlt := (Triangulation.simplices_spec hv h0 h1).1
  have hvert : ∀ i : Fin (n + 1), v (t.simplices (t.find_simplex p) i) =
      (∑ c, a c * t.toGridWorld.index_to_state (t.simplices (t.find_simplex p) i) c) +
        b := fun i => hval _ (hlt i)
  unfold Triangulation.evaluate
  calc (∑ i, t.get_weights p i * v (t.simplices (t.find_simplex p) i))
      = ∑ i, ((∑ c, a c * (t.get_weights p i *
          t.toGridWorld.index_to_state (t.simplices (t.find_simplex p) i) c)) +
          t.get_weights p i * b) := by
        refine Finset.sum_congr rfl fun i _ => ?_
        rw [hvert i, mul_add, Finset.mul_sum]
        congr 1
        refine Finset.sum_congr rfl fun c _ => ?_
        ring
    _ = (∑ i, ∑ c, a c * (t.get_weights p i *
          t.toGridWorld.index_to_state (t.simplices (t.find_simplex p) i) c)) +
        (∑ i, t.get_weights p i * b) := Finset.sum_add_distrib
    _ = (∑ c, a c * (∑ i, t.get_weights p i *
          t.toGridWorld.index_to_state (t.simplices (t.find_simplex p) i) c)) +
        (∑ i, t.get_weights p i) * b := by
        congr 1
        · rw [Finset.sum_comm]
          refine Finset.sum_congr rfl fun c _ => ?_
          rw [Finset.mul_sum]
        · rw [Finset.sum_mul]
    _ = (∑ c, a c * t.get_weights_point p c) + b := by
        rw [Triangulation.weights_sum, one_mul]
        congr 1
        refine Finset.sum_congr rfl fun c _ => ?_
        rw [Triangulation.weights_interpolate hv he hdet p c]

theorem coo_entry_nil (r c : ℕ) : coo_entry [] r c = 0 := rfl

theorem coo_entry_cons (e : ℕ × ℕ × ℚ) (l : List (ℕ × ℕ × ℚ)) (r c : ℕ) :
    coo_entry (e :: l) r c =
      (if e.1 = r ∧ e.2.1 = c then e.2.2 else 0) + coo_entry l r c := rfl

theorem coo_entry_append (l₁ l₂ : List (ℕ × ℕ × ℚ)) (r c : ℕ) :
    coo_entry (l₁ ++ l₂) r c = coo_entry l₁ r c + coo_entry l₂ r c := by
  induction l₁ with
  | nil => simp [coo_entry_nil]
  | cons e l ih =>
    rw [List.cons_append, coo_entry_cons, coo_entry_cons, ih]
    ring

theorem coo_entry_of_row_ne {l : List (ℕ × ℕ × ℚ)} {r : ℕ}
    (h : ∀ e ∈ l, e.1 ≠ r) (c : ℕ) : coo_entry l r c = 0 := by
  induction l with
  | nil => rfl
  | cons e l ih =>
    rw [coo_entry_cons, if_neg, ih (fun e' h' => h e' (List.mem_cons_of_mem e h'))]
    · ring
    · intro hc
      exact h e (List.mem_cons_self e l) hc.1

theorem coo_entry_flatMap {α : Type} (L : List α) (f : α → List (ℕ × ℕ × ℚ))
    (r c : ℕ) :
    coo_entry (L.flatMap f) r c = (L.map (fun x => coo_entry (f x) r c)).sum := by
  induction L with
  | nil => rfl
  | cons a L ih =>
    rw [List.flatMap_cons, coo_entry_append, ih, List.map_cons, List.sum_cons]

theorem coo_dot_row_sum (l : List (ℕ × ℕ × ℚ)) (N : ℕ) (v : ℕ → ℚ) (r : ℕ)
    (hrow : ∀ e ∈ l, e.1 = r) (hcol : ∀ e ∈ l, e.2.1 < N) :
    coo_dot_row l N v r = (l.map (fun e => e.2.2 * v e.2.1)).sum := by
  induction l with
  | nil => simp [coo_dot_row, coo_entry_nil]
  | cons e l ih =>
    have hrowl : ∀ e' ∈ l, e'.1 = r := fun e' h' => hrow e' (List.mem_cons_of_mem e h')
    have hcoll : ∀ e' ∈ l, e'.2.1 < N := fun e' h' => hcol e' (List.mem_cons_of_mem e h')
    have hmem : e.2.1 ∈ Finset.range N :=
      Finset.mem_range.mpr (hcol e (List.mem_cons_self e l))
    unfold coo_dot_row at ih ⊢
    have h1 : ∀ c, coo_entry (e :: l) r c * v c =
        (if e.2.1 = c then e.2.2 * v c else 0) + coo_entry l r c * v c := by
      intro c
      rw [coo_entry_cons, hrow e (List.mem_cons_self e l)]
      by_cases hc : e.2.1 = c
      · rw [if_pos ⟨rfl, hc⟩, if_pos hc]
        ring
      · rw [if_neg (fun hand => hc hand.2), if_neg hc]
        ring
    calc (∑ c ∈ Finset.range N, coo_entry (e :: l) r c * v c)
        = ∑ c ∈ Finset.range N, ((if e.2.1 = c then e.2.2 * v c else 0) +
            coo_entry l r c * v c) := Finset.sum_congr rfl fun c _ => h1 c
      _ = (∑ c ∈ Finset.range N, if e.2.1 = c then e.2.2 * v c else 0) +
            ∑ c ∈ Finset.range N, coo_entry l r c * v c := Finset.sum_add_distrib
      _ = e.2.2 * v e.2.1 + (l.map (fun e => e.2.2 * v e.2.1)).sum := by
          rw [Finset.sum_ite_eq (Finset.range N) e.2.1 (fun c => e.2.2 * v c),
            if_pos hmem, ih hrowl hcoll]
      _ = ((e :: l).map (fun e => e.2.2 * v e.2.1)).sum := by
          rw [List.map_cons, List.sum_cons]

theorem Triangulation.eval_entries_from_nil (t : Triangulation n) (i0 : ℕ) :
    t.eval_entries_from i0 [] = [] := rfl

theorem Triangulation.eval_entries_from_cons (t : Triangulation n) (i0 : ℕ)
    (p : Fin n → ℚ) (ps : List (Fin n → ℚ)) :
    t.eval_entries_from i0 (p :: ps) =
      t.eval_row_block i0 p ++ t.eval_entries_from (i0 + 1) ps := rfl

theorem Triangulation.eval_row_block_mem {t : Triangulation n} {r : ℕ}
    {p : Fin n → ℚ} {e : ℕ × ℕ × ℚ} (h : e ∈ t.eval_row_block r p) :
    e.1 = r ∧ ∃ j : Fin (n + 1), e.2.1 = t.simplices (t.find_simplex p) j := by
  unfold Triangulation.eval_row_block at h
  obtain ⟨j, _, rfl⟩ := List.mem_map.mp h
  exact ⟨rfl, j, rfl⟩

theorem Triangulation.eval_entries_from_mem {t : Triangulation n} :
    ∀ (ps : List (Fin n → ℚ)) (i0 : ℕ) (e : ℕ × ℕ × ℚ),
      e ∈ t.eval_entries_from i0 ps →
      i0 ≤ e.1 ∧ e.1 < i0 + ps.length ∧
        ∃ p ∈ ps, ∃ j : Fin (n + 1), e.2.1 = t.simplices (t.find_simplex p) j
  | [], i0, e => by
    intro h
    rw [Triangulation.eval_entries_from_nil] at h
    exact absurd h (List.not_mem_nil e)
  | p :: ps, i0, e => by
    intro h
    rw [Triangulation.eval_entries_from_cons] at h
    rcases List.mem_append.mp h with h | h
    · obtain ⟨h1, j, h2⟩ := Triangulation.eval_row_block_mem h
      refine ⟨le_of_eq h1.symm, ?_, p, List.mem_cons_self p ps, j, h2⟩
      rw [h1, List.length_cons]
      omega
    · obtain ⟨ha, hb, q, hq, j, hcol⟩ :=
        Triangulation.eval_entries_from_mem ps (i0 + 1) e h
      refine ⟨by omega, ?_, q, List.mem_cons_of_mem p hq, j, hcol⟩
      rw [List.length_cons]
      omega

theorem Triangulation.coo_entry_eval_from {t : Triangulation n} :
    ∀ (ps : List (Fin n → ℚ)) (i0 j : ℕ) (hj : j < ps.length) (c : ℕ),
      coo_entry (t.eval_entries_from i0 ps) (i0 + j) c =
        coo_entry (t.eval_row_block (i0 + j) (ps.get ⟨j, hj⟩)) (i0 + j) c
  | [], _, j, hj, _ => absurd hj (by simp)
  | p :: ps, i0, 0, hj, c => by
    rw [Triangulation.eval_entries_from_cons, coo_entry_append]
    have hzero : coo_entry (t.eval_entries_from (i0 + 1) ps) (i0 + 0) c = 0 := by
      apply coo_entry_of_row_ne
      intro e he
      have := (Triangulation.eval_entries_from_mem ps (i0 + 1) e he).1
      omega
    rw [hzero, add_zero]
    norm_num
  | p :: ps, i0, j + 1, hj, c => by
    rw [Triangulation.eval_entries_from_cons, coo_entry_append]
    have hzero : coo_entry (t.eval_row_block i0 p) (i0 + (j + 1)) c = 0 := by
      apply coo_entry_of_row_ne
      intro e he
      have := (Triangulation.eval_row_block_mem he).1
      omega
    rw [hzero, zero_add]
    have hidx : i0 + (j + 1) = (i0 + 1) + j := by omega
    rw [hidx]
    exact Triangulation.coo_entry_eval_from ps (i0 + 1) j
      (by rw [List.length_cons] at hj; omega) c

theorem Triangulation.coo_dot_eval_block {t : Triangulation n} (r : ℕ)
    (p : Fin n → ℚ) (N : ℕ) (v : ℕ → ℚ)
    (hcol : ∀ j : Fin (n + 1), t.simplices (t.find_simplex p) j < N) :
    coo_dot_row (t.eval_row_block r p) N v r = t.evaluate v p := by
  rw [coo_dot_row_sum _ N v r]
  · unfold Triangulation.eval_row_block
    rw [List.map_map]
    have : ((fun e : ℕ × ℕ × ℚ => e.2.2 * v e.2.1) ∘
        (fun j => (r, t.simplices (t.find_simplex p) j, t.get_weights p j))) =
        fun j : Fin (n + 1) => t.get_weights p j *
          v (t.simplices (t.find_simplex p) j) := rfl
    rw [this, ← Fin.sum_univ_def]
    rfl
  · intro e he
    exact (Triangulation.eval_row_block_mem he).1
  · intro e he
    obtain ⟨-, j, hcolj⟩ := Triangulation.eval_row_block_mem he
    rw [hcolj]
    exact hcol j

theorem Triangulation.grad_entries_from_nil (t : Triangulation n) (i0 : ℕ) :
    t.grad_entries_from i0 [] = [] := rfl

theorem Triangulation.grad_entries_from_cons (t : Triangulation n) (i0 : ℕ)
    (p : Fin n → ℚ) (ps : List (Fin n → ℚ)) :
    t.grad_entries_from i0 (p :: ps) =
      t.grad_point_block i0 p ++ t.grad_entries_from (i0 + 1) ps := rfl

theorem Triangulation.grad_row_block_mem {t : Triangulation n} {r : ℕ}
    {p : Fin n → ℚ} {d : Fin n} {e : ℕ × ℕ × ℚ} (h : e ∈ t.grad_row_block r p d) :
    e.1 = r ∧ ∃ j : Fin (n + 1), e.2.1 = t.simplices (t.find_simplex p) j := by
  unfold Triangulation.grad_row_block at h
  obtain ⟨j, _, rfl⟩ := List.mem_map.mp h
  exact ⟨rfl, j, rfl⟩

theorem Triangulation.grad_point_block_mem {t : Triangulation n} {i : ℕ}
    {p : Fin n → ℚ} {e : ℕ × ℕ × ℚ} (h : e ∈ t.grad_point_block i p) :
    (∃ d : Fin n, e.1 = i * n + d.val) ∧
      ∃ j : Fin (n + 1), e.2.1 = t.simplices (t.find_simplex p) j := by
  unfold Triangulation.grad_point_block at h
  obtain ⟨d, _, hd⟩ := List.mem_flatMap.mp h
  obtain ⟨h1, j, h2⟩ := Triangulation.grad_row_block_mem hd
  exact ⟨⟨d, h1⟩, j, h2⟩

theorem Triangulation.grad_entries_from_mem {t : Triangulation n} :
    ∀ (ps : List (Fin n → ℚ)) (i0 : ℕ) (e : ℕ × ℕ × ℚ),
      e ∈ t.grad_entries_from i0 ps →
      (∃ i, i0 ≤ i ∧ i < i0 + ps.length ∧ ∃ d : Fin n, e.1 = i * n + d.val) ∧
        ∃ p ∈ ps, ∃ j : Fin (n + 1), e.2.1 = t.simplices (t.find_simplex p) j
  | [], i0, e => by
    intro h
    rw [Triangulation.grad_entries_from_nil] at h
    exact absurd h (List.not_mem_nil e)
  | p :: ps, i0, e => by
    intro h
    rw [Triangulation.grad_entries_from_cons] at h
    rcases List.mem_append.mp h with h | h
    · obtain ⟨⟨d, h1⟩, j, h2⟩ := Triangulation.grad_point_block_mem h
      refine ⟨⟨i0, le_refl i0, ?_, d, h1⟩, p, List.mem_cons_self p ps, j, h2⟩
      rw [List.length_cons]
      omega
    · obtain ⟨⟨i, hia, hib, d, h1⟩, q, hq, j, hcol⟩ :=
        Triangulation.grad_entries_from_mem ps (i0 + 1) e h
      refine ⟨⟨i, by omega, ?_, d, h1⟩, q, List.mem_cons_of_mem p hq, j, hcol⟩
      rw [List.length_cons]
      omega

theorem Triangulation.coo_entry_point_block {t : Triangulation n} (i : ℕ)
    (p : Fin n → ℚ) (dv : Fin n) (c : ℕ) :
    coo_entry (t.grad_point_block i p) (i * n + dv.val) c =
      coo_entry (t.grad_row_block (i * n + dv.val) p dv) (i * n + dv.val) c := by
  unfold Triangulation.grad_point_block
  rw [coo_entry_flatMap]
  have hfn : ∀ d : Fin n,
      coo_entry (t.grad_row_block (i * n + d.val) p d) (i * n + dv.val) c =
      if d = dv then coo_entry (t.grad_row_block (i * n + dv.val) p dv)
        (i * n + dv.val) c else 0 := by
    intro d
    by_cases hd : d = dv
    · rw [hd, if_pos rfl]
    · rw [if_neg hd]
      apply coo_entry_of_row_ne
      intro e he hcon
      have hrow := (Triangulation.grad_row_block_mem he).1
      apply hd
      apply Fin.ext
      omega
  calc ((List.finRange n).map (fun d =>
        coo_entry (t.grad_row_block (i * n + d.val) p d) (i * n + dv.val) c)).sum
      = ∑ d : Fin n, coo_entry (t.grad_row_block (i * n + d.val) p d)
          (i * n + dv.val) c := (Fin.sum_univ_def _).symm
    _ = ∑ d : Fin n, if d = dv then coo_entry (t.grad_row_block (i * n + dv.val) p dv)
          (i * n + dv.val) c else 0 := Finset.sum_congr rfl fun d _ => hfn d
    _ = coo_entry (t.grad_row_block (i * n + dv.val) p dv) (i * n + dv.val) c := by
        rw [Finset.sum_ite_eq' Finset.univ dv]
        simp

theorem Triangulation.coo_entry_grad_from {t : Triangulation n} :
    ∀ (ps : List (Fin n → ℚ)) (i0 j : ℕ) (hj : j < ps.length) (dv : Fin n) (c : ℕ),
      coo_entry (t.grad_entries_from i0 ps) ((i0 + j) * n + dv.val) c =
        coo_entry (t.grad_point_block (i0 + j) (ps.get ⟨j, hj⟩))
          ((i0 + j) * n + dv.val) c
  | [], _, j, hj, _, _ => absurd hj (by simp)
  | p :: ps, i0, 0, hj, dv, c => by
    rw [Triangulation.grad_entries_from_cons, coo_entry_append]
    have hzero : coo_entry (t.grad_entries_from (i0 + 1) ps)
        ((i0 + 0) * n + dv.val) c = 0 := by
      apply coo_entry_of_row_ne
      intro e he hcon
      obtain ⟨⟨i, hia, hib, d, h1⟩, -⟩ :=
        Triangulation.grad_entries_from_mem ps (i0 + 1) e he
      have hdn : dv.val < n := dv.isLt
      have hi : (i0 + 1) * n ≤ i * n := Nat.mul_le_mul_right n hia
      rw [h1] at hcon
      have h1e : (i0 + 0) * n = i0 * n := by norm_num
      have h2e : (i0 + 1) * n = i0 * n + n := by rw [Nat.add_mul, Nat.one_mul]
      omega
    rw [hzero, add_zero]
    norm_num
  | p :: ps, i0, j + 1, hj, dv, c => by
    rw [Triangulation.grad_entries_from_cons, coo_entry_append]
    have hzero : coo_entry (t.grad_point_block i0 p)
        ((i0 + (j + 1)) * n + dv.val) c = 0 := by
      apply coo_entry_of_row_ne
      intro e he hcon
      obtain ⟨⟨d, h1⟩, -⟩ := Triangulation.grad_point_block_mem he
      have hdn : d.val < n := d.isLt
      have : i0 * n + d.val < (i0 + 1) * n := by
        rw [Nat.add_mul, Nat.one_mul]
        omega
      have hle : (i0 + 1) * n ≤ (i0 + (j + 1)) * n :=
        Nat.mul_le_mul_right n (by omega)
      rw [h1] at hcon
      omega
    rw [hzero, zero_add]
    have hidx : i0 + (j + 1) = (i0 + 1) + j := by omega
    rw [hidx]
    exact Triangulation.coo_entry_grad_from ps (i0 + 1) j
      (by rw [List.length_cons] at hj; omega) dv c

theorem Triangulation.coo_dot_grad_block {t : Triangulation n} (r : ℕ)
    (p : Fin n → ℚ) (dv : Fin n) (N : ℕ) (v : ℕ → ℚ)
    (hcol : ∀ j : Fin (n + 1), t.simplices (t.find_simplex p) j < N) :
    coo_dot_row (t.grad_row_block r p dv) N v r = t.gradient v p dv := by
  rw [coo_dot_row_sum _ N v r]
  · unfold Triangulation.grad_row_block
    rw [List.map_map]
    have : ((fun e : ℕ × ℕ × ℚ => e.2.2 * v e.2.1) ∘
        (fun j => (r, t.simplices (t.find_simplex p) j,
          t.get_weights_gradient p dv j))) =
        fun j : Fin (n + 1) => t.get_weights_gradient p dv j *
          v (t.simplices (t.find_simplex p) j) := rfl
    rw [this, ← Fin.sum_univ_def]
    rfl
  · intro e he
    exact (Triangulation.grad_row_block_mem he).1
  · intro e he
    obtain ⟨-, j, hcolj⟩ := Triangulation.grad_row_block_mem he
    rw [hcolj]
    exact hcol j

theorem gEx_valid : gEx.valid := by
  intro d
  fin_cases d <;> constructor <;> norm_num [gEx]

theorem gEx_eps_ok : gEx.eps_ok := by
  constructor
  · norm_num [gEx]
  · intro d
    fin_cases d <;> norm_num [gEx, GridWorld.extent, GridWorld.offset]

theorem gEx_um : ∀ d, gEx.unit_maxes d = 1 / 2 := by
  intro d
  fin_cases d <;> norm_num [gEx, GridWorld.unit_maxes, GridWorld.offset]

theorem gEx_off : ∀ d, gEx.offset d = 0 := by
  intro d
  fin_cases d <;> norm_num [gEx, GridWorld.offset]

theorem gEx_state0 : ∀ d, gEx.index_to_state 0 d = ![(0 : ℚ), 0] d := by
  intro d
  unfold GridWorld.index_to_state
  rw [gEx_um d, gEx_off d]
  fin_cases d <;>
    (rw [show unravel (fun e => gEx.num_points e + 1) 0 = ![0, 0] from by decide] <;>
      norm_num)

theorem gEx_state1 : ∀ d, gEx.index_to_state 1 d = ![(0 : ℚ), 1 / 2] d := by
  intro d
  unfold GridWorld.index_to_state
  rw [gEx_um d, gEx_off d]
  fin_cases d <;>
    (rw [show unravel (fun e => gEx.num_points e + 1) 1 = ![0, 1] from by decide] <;>
      norm_num)

theorem gEx_state3 : ∀ d, gEx.index_to_state 3 d = ![(1 : ℚ) / 2, 0] d := by
  intro d
  unfold GridWorld.index_to_state
  rw [gEx_um d, gEx_off d]
  fin_cases d <;>
    (rw [show unravel (fun e => gEx.num_points e + 1) 3 = ![1, 0] from by decide] <;>
      norm_num)

theorem gEx_state4 : ∀ d, gEx.index_to_state 4 d = ![(1 : ℚ) / 2, 1 / 2] d := by
  intro d
  unfold GridWorld.index_to_state
  rw [gEx_um d, gEx_off d]
  fin_cases d <;>
    (rw [show unravel (fun e => gEx.num_points e + 1) 4 = ![1, 1] from by decide] <;>
      norm_num)

theorem tEx_grid : tEx.toGridWorld = gEx := rfl

theorem tEx_tri : tEx.triangulation = refEx := rfl

theorem refEx_simplices0 : refEx.simplices 0 = ![0, 1, 2] := by
  show (if (0 : ℕ) = 0 then ![0, 1, 2] else ![3, 1, 2]) = ![0, 1, 2]
  rw [if_pos rfl]

theorem refEx_simplices1 : refEx.simplices 1 = ![3, 1, 2] := by
  show (if (1 : ℕ) = 0 then ![0, 1, 2] else ![3, 1, 2]) = ![3, 1, 2]
  norm_num

theorem refEx_points0 : refEx.points 0 = ![(0 : ℚ), 0] := rfl

theorem refEx_points1 : refEx.points 1 = ![(1 : ℚ) / 2, 0] := rfl

theorem refEx_points2 : refEx.points 2 = ![(0 : ℚ), (1 : ℚ) / 2] := rfl

theorem refEx_points3 : refEx.points 3 = ![(1 : ℚ) / 2, (1 : ℚ) / 2] := rfl

theorem tEx_valid : tEx.toGridWorld.valid := gEx_valid

theorem tEx_eps_ok : tEx.toGridWorld.eps_ok := gEx_eps_ok

theorem tEx_us00 : Triangulation.unit_simplices tEx 0 0 = 0 := by
  rw [Triangulation.unit_simplices_eq tEx_valid 0 0]
  rw [show (fun d => if tEx.triangulation.points (tEx.triangulation.simplices 0 0) d = 0
      then (0 : ℕ) else 1) = ![0, 0] from by
    funext d
    rw [tEx_tri, refEx_simplices0, show (![0, 1, 2] : Fin 3 → ℕ) 0 = 0 from rfl,
      refEx_points0]
    fin_cases d <;> norm_num]
  decide

theorem tEx_us01 : Triangulation.unit_simplices tEx 0 1 = 3 := by
  rw [Triangulation.unit_simplices_eq tEx_valid 0 1]
  rw [show (fun d => if tEx.triangulation.points (tEx.triangulation.simplices 0 1) d = 0
      then (0 : ℕ) else 1) = ![1, 0] from by
    funext d
    rw [tEx_tri, refEx_simplices0, show (![0, 1, 2] : Fin 3 → ℕ) 1 = 1 from rfl,
      refEx_points1]
    fin_cases d <;> norm_num]
  decide

theorem tEx_us02 : Triangulation.unit_simplices tEx 0 2 = 1 := by
  rw [Triangulation.unit_simplices_eq tEx_valid 0 2]
  rw [show (fun d => if tEx.triangulation.points (tEx.triangulation.simplices 0 2) d = 0
      then (0 : ℕ) else 1) = ![0, 1] from by
    funext d
    rw [tEx_tri, refEx_simplices0, show (![0, 1, 2] : Fin 3 → ℕ) 2 = 2 from rfl,
      refEx_points2]
    fin_cases d <;> norm_num]
  decide

theorem tEx_us10 : Triangulation.unit_simplices tEx 1 0 = 4 := by
  rw [Triangulation.unit_simplices_eq tEx_valid 1 0]
  rw [show (fun d => if tEx.triangulation.points (tEx.triangulation.simplices 1 0) d = 0
      then (0 : ℕ) else 1) = ![1, 1] from by
    funext d
    rw [tEx_tri, refEx_simplices1, show (![3, 1, 2] : Fin 3 → ℕ) 0 = 3 from rfl,
      refEx_points3]
    fin_cases d <;> norm_num]
  decide

theorem tEx_us11 : Triangulation.unit_simplices tEx 1 1 = 3 := by
  rw [Triangulation.unit_simplices_eq tEx_valid 1 1]
  rw [show (fun d => if tEx.triangulation.points (tEx.triangulation.simplices 1 1) d = 0
      then (0 : ℕ) else 1) = ![1, 0] from by
    funext d
    rw [tEx_tri, refEx_simplices1, show (![3, 1, 2] : Fin 3 → ℕ) 1 = 1 from rfl,
      refEx_points1]
    fin_cases d <;> norm_num]
  decide

theorem tEx_us12 : Triangulation.unit_simplices tEx 1 2 = 1 := by
  rw [Triangulation.unit_simplices_eq tEx_valid 1 2]
  rw [show (fun d => if tEx.triangulation.points (tEx.triangulation.simplices 1 2) d = 0
      then (0 : ℕ) else 1) = ![0, 1] from by
    funext d
    rw [tEx_tri, refEx_simplices1, show (![3, 1, 2] : Fin 3 → ℕ) 2 = 2 from rfl,
      refEx_points2]
    fin_cases d <;> norm_num]
  decide

theorem tEx_edges_apply (s : ℕ) (i : Fin 2) (d : Fin 2) :
    Triangulation.simplex_edges tEx s i d =
      gEx.index_to_state (Triangulation.unit_simplices tEx s i.succ) d -
        gEx.index_to_state (Triangulation.unit_simplices tEx s 0) d := rfl

theorem tEx_det : ∀ s, s < tEx.triangulation.nsimplex →
    (Triangulation.simplex_edges tEx s).det ≠ 0 := by
  intro s hs
  have hK : tEx.triangulation.nsimplex = 2 := rfl
  rw [hK] at hs
  interval_cases s
  · rw [Matrix.det_fin_two, tEx_edges_apply 0 0 0, tEx_edges_apply 0 0 1,
      tEx_edges_apply 0 1 0, tEx_edges_apply 0 1 1,
      show (0 : Fin 2).succ = (1 : Fin 3) from rfl,
      show (1 : Fin 2).succ = (2 : Fin 3) from rfl,
      tEx_us01, tEx_us02, tEx_us00,
      gEx_state3 0, gEx_state3 1, gEx_state1 0, gEx_state1 1,
      gEx_state0 0, gEx_state0 1]
    norm_num
  · rw [Matrix.det_fin_two, tEx_edges_apply 1 0 0, tEx_edges_apply 1 0 1,
      tEx_edges_apply 1 1 0, tEx_edges_apply 1 1 1,
      show (0 : Fin 2).succ = (1 : Fin 3) from rfl,
      show (1 : Fin 2).succ = (2 : Fin 3) from rfl,
      tEx_us11, tEx_us12, tEx_us10,
      gEx_state3 0, gEx_state3 1, gEx_state1 0, gEx_state1 1,
      gEx_state4 0, gEx_state4 1]
    norm_num

theorem tEx_center_int (p : Fin 2 → ℚ)
    (hp : ∀ d, 2 / 1000 ≤ p d ∧ p d ≤ 1 - 2 / 1000) :
    tEx.toGridWorld.center_states true p = p := by
  funext d
  rw [tEx_grid]
  unfold GridWorld.center_states
  rw [if_pos rfl]
  have ho : gEx.offset d = 0 := gEx_off d
  have hext : gEx.extent d = 1 := by
    fin_cases d <;> norm_num [gEx, GridWorld.extent, GridWorld.offset]
  have heps : gEx.eps = 1 / 1000 := rfl
  rw [ho, hext, heps, sub_zero]
  exact clip_eq_self (by linarith [(hp d).1]) (by linarith [(hp d).2])

theorem tEx_floor_small {x : ℚ} (h1 : 0 ≤ x) (h2 : x < 1 / 2) :
    ⌊x / ((1 : ℚ) / 2)⌋ = 0 := by
  rw [show x / ((1 : ℚ) / 2) = 2 * x from by ring]
  rw [Int.floor_eq_zero_iff]
  rw [Set.mem_Ico]
  constructor <;> linarith

theorem tEx_find_lower (p : Fin 2 → ℚ)
    (hp : ∀ d, 2 / 1000 ≤ p d ∧ p d ≤ 1 - 2 / 1000)
    (hcell : ∀ d, p d < 1 / 2) (hlow : p 0 + p 1 ≤ 1 / 2) :
    Triangulation.find_simplex tEx p = 0 := by
  have hc := tEx_center_int p hp
  unfold Triangulation.find_simplex
  rw [hc]
  have hp0 : ∀ d, (0 : ℚ) ≤ p d := fun d => by linarith [(hp d).1]
  have hq : (fun d => qmod (p d) (tEx.toGridWorld.unit_maxes d)) = p := by
    funext d
    have hu : tEx.toGridWorld.unit_maxes d = 1 / 2 := gEx_um d
    rw [hu]
    unfold qmod
    rw [tEx_floor_small (hp0 d) (hcell d)]
    ring
  rw [hq]
  have hfu : tEx.triangulation.find_unit p = 0 := by
    rw [tEx_tri]
    show (if p 0 + p 1 ≤ 1 / 2 then (0 : ℤ) else 1) = 0
    rw [if_pos hlow]
  rw [hfu]
  have hrect : tEx.toGridWorld.state_to_rectangle false p = 0 := by
    rw [tEx_grid]
    show ravel gEx.num_points (fun d => (⌊p d / gEx.unit_maxes d⌋).toNat) = 0
    have hz : (fun d => (⌊p d / gEx.unit_maxes d⌋).toNat) = fun _ => 0 := by
      funext d
      rw [gEx_um d, tEx_floor_small (hp0 d) (hcell d)]
      rfl
    rw [hz]
    decide
  rw [hrect]
  norm_num

theorem tEx_find_pEx2 : Triangulation.find_simplex tEx pEx2 = 0 := by
  apply tEx_find_lower
  · intro d; fin_cases d <;> norm_num [pEx2]
  · intro d; fin_cases d <;> norm_num [pEx2]
  · norm_num [pEx2]

theorem tEx_simplices0 : ∀ i : Fin 3,
    Triangulation.simplices tEx (0 : ℤ) i = Triangulation.unit_simplices tEx 0 i := by
  intro i
  unfold Triangulation.simplices Triangulation.unit_id
  have h1 : ((0 : ℤ) % (tEx.triangulation.nsimplex : ℤ)).toNat = 0 := by norm_num
  have h2 : ((0 : ℤ) / (tEx.triangulation.nsimplex : ℤ)).toNat = 0 := by norm_num
  rw [h1, h2]
  have h3 : tEx.toGridWorld.rectangle_corner_index 0 = 0 := by
    rw [tEx_grid]
    unfold GridWorld.rectangle_corner_index
    decide
  rw [h3, Nat.add_zero]

/-- Claim C1: for every grid and every globally affine field `f x = a · x + b`,
if `vertex_values i = f (index_to_state i)` for every vertex index `i`, then at
every query point strictly inside the domain `Triangulation.evaluate` returns
exactly `f` at that point and `Triangulation.gradient` returns exactly the
constant vector `a` (exact over the exact rational arithmetic of this model).
The hypotheses are the construction-time invariants: a valid grid, a
machine-epsilon margin smaller than the domain, and nondegenerate unit
simplices (a singular cached hyperplane matrix is a construction-time error,
spec §7). -/
theorem claim_C1 {t : Triangulation n}
    (hv : t.toGridWorld.valid) (he : t.toGridWorld.eps_ok)
    (hdet : ∀ s, s < t.triangulation.nsimplex → (t.simplex_edges s).det ≠ 0)
    (a : Fin n → ℚ) (b : ℚ) (v : ℕ → ℚ)
    (hval : ∀ i, i < t.toGridWorld.nindex →
      v i = (∑ c, a c * t.toGridWorld.index_to_state i c) + b)
    (p : Fin n → ℚ)
    (hp : ∀ d, (t.toGridWorld.limits d).1 < p d ∧ p d < (t.toGridWorld.limits d).2) :
    t.evaluate v p = (∑ c, a c * p c) + b ∧ ∀ d, t.gradient v p d = a d := by
  constructor
  · rw [Triangulation.evaluate_interpolates hv he hdet a b v hval p,
      Triangulation.get_weights_point_eq_self
        (fun d => ⟨le_of_lt (hp d).1, le_of_lt (hp d).2⟩)]
  · intro d
    exact Triangulation.gradient_affine hv he hdet a b v hval p d

/-- Witness for C1: the spec's §8 concrete scenario, the 2-D grid over
`[0,1] × [0,1]` with 2 cells per axis, `vertex_values = x + 2 y`, query point
`(1/4, 1/4)`: `evaluate` returns `3/4` and `gradient` returns `(1, 2)`. -/
theorem claim_C1_witness :
    Triangulation.evaluate tEx vEx pEx = 3 / 4 ∧
      Triangulation.gradient tEx vEx pEx = ![1, 2] := by
  have h := claim_C1 tEx_valid tEx_eps_ok tEx_det ![1, 2] 0 vEx
    (by
      intro i _
      show vEx i = (∑ c, ![(1 : ℚ), 2] c * gEx.index_to_state i c) + 0
      rw [Fin.sum_univ_two]
      unfold vEx
      norm_num)
    pEx
    (by
      intro d
      fin_cases d <;> constructor <;> norm_num [tEx, gEx, pEx])
  constructor
  · rw [h.1, Fin.sum_univ_two]
    norm_num [pEx]
  · funext d
    exact h.2 d

/-- Claim C5: for every vertex index `v < nindex`,
`state_to_index (index_to_state v) = v`: the round trip through physical
coordinates is the identity on vertex indices of a valid grid. -/
theorem claim_C5 {g : GridWorld n} (hv : g.valid) (v : ℕ) (hvlt : v < g.nindex) :
    g.state_to_index (g.index_to_state v) = (v : ℤ) :=
  GridWorld.state_to_index_round_trip hv v hvlt

/-- Witness for C5: the round trip at vertex 5 of the 9-vertex concrete
grid. -/
theorem claim_C5_witness :
    gEx.state_to_index (gEx.index_to_state 5) = (5 : ℤ) :=
  claim_C5 gEx_valid 5 (by decide)

/-- Claim C7: the per-simplex gradient weights equal the cached hyperplane
inverse in the non-origin columns and the negative row sum in the origin
column, so for each point and each physical dimension the `ndim + 1` gradient
weights sum to zero. -/
theorem claim_C7 (t : Triangulation n) (p : Fin n → ℚ) :
    (∀ (d : Fin n) (k : Fin n), t.get_weights_gradient p d k.succ =
      t.hyperplanes (t.unit_id (t.find_simplex p)) d k) ∧
    (∀ d : Fin n, t.get_weights_gradient p d 0 =
      - ∑ k, t.hyperplanes (t.unit_id (t.find_simplex p)) d k) ∧
    (∀ d : Fin n, (∑ i, t.get_weights_gradient p d i) = 0) := by
  refine ⟨fun d k => ?_, fun d => ?_, fun d => ?_⟩
  · rw [Triangulation.gradient_weights_def, Fin.cons_succ]
  · rw [Triangulation.gradient_weights_def, Fin.cons_zero]
  · rw [Triangulation.gradient_weights_def, Fin.sum_cons]
    ring

/-- Claim C10: for every rational query point (including points far outside
the domain) on a valid grid with a realistic machine epsilon, the floor
components of `state_to_rectangle` are in range, the rectangle index is in
`[0, nrectangles)`, and `find_simplex` returns a global simplex id in
`[0, nsimplex)`: the `2 eps` clip of `_center_states` keeps every coordinate
strictly inside `(0, extent)`, so the floor division, `ravel_multi_index`, and
reference point location never produce an out-of-range or not-found result. -/
theorem claim_C10 {t : Triangulation n} (hv : t.toGridWorld.valid)
    (he : t.toGridWorld.eps_ok) (p : Fin n → ℚ) :
    (∀ d, 0 ≤ ⌊t.toGridWorld.center_states true p d / t.toGridWorld.unit_maxes d⌋ ∧
      ⌊t.toGridWorld.center_states true p d / t.toGridWorld.unit_maxes d⌋ <
        (t.toGridWorld.num_points d : ℤ)) ∧
    t.toGridWorld.state_to_rectangle true p < t.toGridWorld.nrectangles ∧
    0 ≤ t.find_simplex p ∧ t.find_simplex p < (t.nsimplex : ℤ) := by
  refine ⟨fun d => GridWorld.center_floor_range hv he p d, ?_,
    Triangulation.find_simplex_range hv he p⟩
  rw [GridWorld.state_to_rectangle_true]
  exact GridWorld.state_to_rectangle_lt hv he p

/-- Witness for C10: the query point `(2, 1/4)`, far outside the unit-square
domain in dimension 0, still gets an in-range rectangle index and simplex
id. -/
theorem claim_C10_witness :
    tEx.toGridWorld.state_to_rectangle true pExOut < tEx.toGridWorld.nrectangles ∧
      0 ≤ Triangulation.find_simplex tEx pExOut ∧
      Triangulation.find_simplex tEx pExOut < (tEx.nsimplex : ℤ) := by
  have h := claim_C10 tEx_valid tEx_eps_ok pExOut
  exact ⟨h.2.1, h.2.2⟩

/-- Claim C2: for every batch of query points and vertex-value vector, every
COO triple of `evaluate_constraint` lies inside the declared
`(len points, nindex)` shape, and each row of the matrix-vector product
`B.dot vertex_values` equals `evaluate` at the corresponding point. -/
theorem claim_C2 {t : Triangulation n}
    (hv : t.toGridWorld.valid) (he : t.toGridWorld.eps_ok)
    (ps : List (Fin n → ℚ)) (v : ℕ → ℚ) :
    (∀ e ∈ t.evaluate_constraint_entries ps,
      e.1 < ps.length ∧ e.2.1 < t.toGridWorld.nindex) ∧
    ∀ (r : ℕ) (hr : r < ps.length),
      coo_dot_row (t.evaluate_constraint_entries ps) t.toGridWorld.nindex v r =
        t.evaluate v (ps.get ⟨r, hr⟩) := by
  have hcol : ∀ (p : Fin n → ℚ) (j : Fin (n + 1)),
      t.simplices (t.find_simplex p) j < t.toGridWorld.nindex := by
    intro p j
    obtain ⟨h0, h1⟩ := Triangulation.find_simplex_range hv he p
    exact (Triangulation.simplices_spec hv h0 h1).1 j
  constructor
  · intro e hme
    unfold Triangulation.evaluate_constraint_entries at hme
    obtain ⟨ha, hb, q, hq, j, hcolj⟩ :=
      Triangulation.eval_entries_from_mem ps 0 e hme
    exact ⟨by omega, by rw [hcolj]; exact hcol q j⟩
  · intro r hr
    unfold Triangulation.evaluate_constraint_entries coo_dot_row
    have hext : ∀ c, coo_entry (t.eval_entries_from 0 ps) r c =
        coo_entry (t.eval_row_block r (ps.get ⟨r, hr⟩)) r c := by
      intro c
      have h := @Triangulation.coo_entry_eval_from n t ps 0 r hr c
      rw [Nat.zero_add] at h
      exact h
    calc (∑ c ∈ Finset.range t.toGridWorld.nindex,
          coo_entry (t.eval_entries_from 0 ps) r c * v c)
        = ∑ c ∈ Finset.range t.toGridWorld.nindex,
            coo_entry (t.eval_row_block r (ps.get ⟨r, hr⟩)) r c * v c :=
          Finset.sum_congr rfl fun c _ => by rw [hext c]
      _ = t.evaluate v (ps.get ⟨r, hr⟩) := by
          have h := Triangulation.coo_dot_eval_block r (ps.get ⟨r, hr⟩)
            t.toGridWorld.nindex v (hcol _)
          unfold coo_dot_row at h
          exact h

/-- Witness for C2: row 0 of the constraint matrix of the single-point batch
`[(1/4, 1/4)]` on the concrete grid reproduces `evaluate`. -/
theorem claim_C2_witness :
    coo_dot_row (Triangulation.evaluate_constraint_entries tEx [pEx])
      tEx.toGridWorld.nindex vEx 0 = Triangulation.evaluate tEx vEx pEx :=
  (claim_C2 tEx_valid tEx_eps_ok [pEx] vEx).2 0 (by norm_num)

theorem Triangulation.grad_dot_rows {t : Triangulation n}
    (hv : t.toGridWorld.valid) (he : t.toGridWorld.eps_ok)
    (ps : List (Fin n → ℚ)) (v : ℕ → ℚ) (i : ℕ) (hi : i < ps.length) (dv : Fin n) :
    coo_dot_row (t.gradient_constraint_entries ps) t.toGridWorld.nindex v
      (i * n + dv.val) = t.gradient v (ps.get ⟨i, hi⟩) dv := by
  have hcol : ∀ j : Fin (n + 1),
      t.simplices (t.find_simplex (ps.get ⟨i, hi⟩)) j < t.toGridWorld.nindex := by
    intro j
    obtain ⟨h0, h1⟩ := Triangulation.find_simplex_range hv he (ps.get ⟨i, hi⟩)
    exact (Triangulation.simplices_spec hv h0 h1).1 j
  unfold Triangulation.gradient_constraint_entries coo_dot_row
  have hext : ∀ c, coo_entry (t.grad_entries_from 0 ps) (i * n + dv.val) c =
      coo_entry (t.grad_row_block (i * n + dv.val) (ps.get ⟨i, hi⟩) dv)
        (i * n + dv.val) c := by
    intro c
    have h := @Triangulation.coo_entry_grad_from n t ps 0 i hi dv c
    rw [Nat.zero_add] at h
    rw [h]
    exact @Triangulation.coo_entry_point_block n t i (ps.get ⟨i, hi⟩) dv c
  calc (∑ c ∈ Finset.range t.toGridWorld.nindex,
        coo_entry (t.grad_entries_from 0 ps) (i * n + dv.val) c * v c)
      = ∑ c ∈ Finset.range t.toGridWorld.nindex,
          coo_entry (t.grad_row_block (i * n + dv.val) (ps.get ⟨i, hi⟩) dv)
            (i * n + dv.val) c * v c :=
        Finset.sum_congr rfl fun c _ => by rw [hext c]
    _ = t.gradient v (ps.get ⟨i, hi⟩) dv := by
        have h := Triangulation.coo_dot_grad_block (i * n + dv.val)
          (ps.get ⟨i, hi⟩) dv t.toGridWorld.nindex v hcol
        unfold coo_dot_row at h
        exact h

/-- Counterexample to C3 as stated: on the concrete 2-D grid with the
two-point batch `[(1/4, 1/4), (1/10, 1/5)]` and vertex values sampling
`f (x, y) = x`, reshaping the product `gradient_constraint.dot vertex_values`
into `(ndim, k) = (2, 2)` C order puts at position `(dimension 0, point 1)`
the flat entry `0 * 2 + 1`, which is the gradient of point 0 along dimension 1
(namely `0`), not the claimed `gradient(points)[1, 0]` (namely `1`). -/
theorem claim_C3_counterexample :
    reshape2 2 (fun r => coo_dot_row
      (Triangulation.gradient_constraint_entries tEx [pEx, pEx2])
      tEx.toGridWorld.nindex vExA r) 0 1 ≠
      Triangulation.gradient tEx vExA pEx2 0 := by
  have hvalA : ∀ i, i < tEx.toGridWorld.nindex →
      vExA i = (∑ c, ![(1 : ℚ), 0] c * gEx.index_to_state i c) + 0 := by
    intro i _
    rw [Fin.sum_univ_two]
    unfold vExA
    norm_num
  have hrow := Triangulation.grad_dot_rows tEx_valid tEx_eps_ok [pEx, pEx2] vExA 0
    (by norm_num) 1
  rw [show ((1 : Fin 2) : ℕ) = 1 from rfl] at hrow
  have h1 : Triangulation.gradient tEx vExA pEx 1 = 0 := by
    rw [Triangulation.gradient_affine tEx_valid tEx_eps_ok tEx_det ![1, 0] 0 vExA
      hvalA pEx 1]
    norm_num
  have h2 : Triangulation.gradient tEx vExA pEx2 0 = 1 := by
    rw [Triangulation.gradient_affine tEx_valid tEx_eps_ok tEx_det ![1, 0] 0 vExA
      hvalA pEx2 0]
    norm_num
  unfold reshape2
  beta_reduce
  rw [hrow, h2]
  show Triangulation.gradient tEx vExA pEx 1 ≠ 1
  rw [h1]
  norm_num

/-- Claim C3 (amended): `gradient_constraint` emits COO triples inside the
declared `(ndim * k, nindex)` shape, and the product with `vertex_values` at
flat row `i * ndim + d` equals `gradient(points)[i, d]` — that is, the flat
product vector is point-major and must be reshaped into `(k, ndim)` (not
`(ndim, k)` as the claim and the source docstring state) to recover the
per-point gradients. -/
theorem claim_C3_amended {t : Triangulation n}
    (hv : t.toGridWorld.valid) (he : t.toGridWorld.eps_ok)
    (ps : List (Fin n → ℚ)) (v : ℕ → ℚ) :
    (∀ e ∈ t.gradient_constraint_entries ps,
      e.1 < n * ps.length ∧ e.2.1 < t.toGridWorld.nindex) ∧
    ∀ (i : ℕ) (hi : i < ps.length) (dv : Fin n),
      coo_dot_row (t.gradient_constraint_entries ps) t.toGridWorld.nindex v
        (i * n + dv.val) = t.gradient v (ps.get ⟨i, hi⟩) dv := by
  constructor
  · intro e hme
    unfold Triangulation.gradient_constraint_entries at hme
    obtain ⟨⟨i, hia, hib, d, h1⟩, q, hq, j, hcolj⟩ :=
      Triangulation.grad_entries_from_mem ps 0 e hme
    constructor
    · rw [h1]
      have hd : d.val < n := d.isLt
      have hstep : i * n + d.val < (i + 1) * n := by
        rw [Nat.add_mul, Nat.one_mul]
        omega
      have h2 : (i + 1) * n ≤ ps.length * n := Nat.mul_le_mul_right n (by omega)
      have h3 : ps.length * n = n * ps.length := Nat.mul_comm _ _
      omega
    · rw [hcolj]
      obtain ⟨h0, h1'⟩ := Triangulation.find_simplex_range hv he q
      exact (Triangulation.simplices_spec hv h0 h1').1 j
  · intro i hi dv
    exact Triangulation.grad_dot_rows hv he ps v i hi dv

/-- Witness for the amended C3: flat row `1 * 2 + 0` of the gradient
constraint of the two-point batch reproduces `gradient` of point 1 along
dimension 0. -/
theorem claim_C3_amended_witness :
    coo_dot_row (Triangulation.gradient_constraint_entries tEx [pEx, pEx2])
      tEx.toGridWorld.nindex vExA (1 * 2 + (0 : Fin 2).val) =
      Triangulation.gradient tEx vExA pEx2 0 :=
  (claim_C3_amended tEx_valid tEx_eps_ok [pEx, pEx2] vExA).2 1 (by norm_num) 0

/-- Claim C4: for every query point the `ndim + 1` barycentric weights of its
row (origin weight plus non-origin weights) sum to exactly 1; and when the
point lies strictly inside its located simplex, every weight in the row lies
in `[0, 1]`. -/
theorem claim_C4 {t : Triangulation n}
    (hv : t.toGridWorld.valid) (he : t.toGridWorld.eps_ok)
    (hdet : ∀ s, s < t.triangulation.nsimplex → (t.simplex_edges s).det ≠ 0)
    (p : Fin n → ℚ) :
    (∑ i, t.get_weights p i) = 1 ∧
    (strictlyInside p (fun i d =>
        t.toGridWorld.index_to_state (t.simplices (t.find_simplex p) i) d) →
      ∀ i, 0 ≤ t.get_weights p i ∧ t.get_weights p i ≤ 1) := by
  refine ⟨Triangulation.weights_sum t p, ?_⟩
  rintro ⟨lam, hpos, hsum, hcomb⟩ i
  obtain ⟨h0, h1⟩ := Triangulation.find_simplex_range hv he p
  have hltN := (Triangulation.simplices_spec hv h0 h1).1
  have hcomb' : ∀ d, (∑ j, lam j *
      t.toGridWorld.index_to_state (t.simplices (t.find_simplex p) j) d) =
      p d := hcomb
  have hdom : ∀ d, (t.toGridWorld.limits d).1 ≤ p d ∧
      p d ≤ (t.toGridWorld.limits d).2 := by
    intro d
    have hY : ∀ j : Fin (n + 1),
        (t.toGridWorld.limits d).1 ≤
          t.toGridWorld.index_to_state (t.simplices (t.find_simplex p) j) d ∧
        t.toGridWorld.index_to_state (t.simplices (t.find_simplex p) j) d ≤
          (t.toGridWorld.limits d).2 :=
      fun j => GridWorld.index_to_state_mem hv (hltN j) d
    constructor
    · have hlow : (∑ j : Fin (n + 1), lam j * (t.toGridWorld.limits d).1) =
          (t.toGridWorld.limits d).1 := by
        rw [← Finset.sum_mul, hsum, one_mul]
      calc (t.toGridWorld.limits d).1
          = ∑ j : Fin (n + 1), lam j * (t.toGridWorld.limits d).1 := hlow.symm
        _ ≤ ∑ j, lam j * t.toGridWorld.index_to_state
              (t.simplices (t.find_simplex p) j) d :=
            Finset.sum_le_sum fun j _ =>
              mul_le_mul_of_nonneg_left (hY j).1 (le_of_lt (hpos j))
        _ = p d := hcomb' d
    · have hhigh : (∑ j : Fin (n + 1), lam j * (t.toGridWorld.limits d).2) =
          (t.toGridWorld.limits d).2 := by
        rw [← Finset.sum_mul, hsum, one_mul]
      calc p d = ∑ j, lam j * t.toGridWorld.index_to_state
              (t.simplices (t.find_simplex p) j) d := (hcomb' d).symm
        _ ≤ ∑ j : Fin (n + 1), lam j * (t.toGridWorld.limits d).2 :=
            Finset.sum_le_sum fun j _ =>
              mul_le_mul_of_nonneg_left (hY j).2 (le_of_lt (hpos j))
        _ = (t.toGridWorld.limits d).2 := hhigh
  have hpp : t.get_weights_point p = p :=
    Triangulation.get_weights_point_eq_self hdom
  have hcomb2 : ∀ d, (∑ j, lam j *
      t.toGridWorld.index_to_state (t.simplices (t.find_simplex p) j) d) =
      t.get_weights_point p d := by
    intro d
    rw [hpp]
    exact hcomb' d
  have hlam := Triangulation.weights_unique hv he hdet p lam hsum hcomb2
  constructor
  · rw [← hlam i]
    exact le_of_lt (hpos i)
  · have hnn : ∀ j, 0 ≤ t.get_weights p j := fun j => by
      rw [← hlam j]
      exact le_of_lt (hpos j)
    have hle := Finset.single_le_sum (f := t.get_weights p) (fun j _ => hnn j)
      (Finset.mem_univ i)
    rw [Triangulation.weights_sum t p] at hle
    exact hle

/-- Witness for C4: the query point `(1/10, 1/5)` lies strictly inside unit
simplex 0 of the bottom-left cell of the concrete grid; its weights sum to 1
and the weight of vertex 1 lies in `[0, 1]`. -/
theorem claim_C4_witness :
    (∑ i, Triangulation.get_weights tEx pEx2 i) = 1 ∧
      0 ≤ Triangulation.get_weights tEx pEx2 1 ∧
      Triangulation.get_weights tEx pEx2 1 ≤ 1 := by
  have h := claim_C4 tEx_valid tEx_eps_ok tEx_det pEx2
  have hins : strictlyInside pEx2 (fun i d =>
      tEx.toGridWorld.index_to_state (Triangulation.simplices tEx
        (Triangulation.find_simplex tEx pEx2) i) d) := by
    refine ⟨![2 / 5, 1 / 5, 2 / 5], ?_, ?_, ?_⟩
    · intro i
      fin_cases i <;> norm_num
    · rw [Fin.sum_univ_three]
      norm_num
    · intro d
      rw [Fin.sum_univ_three]
      beta_reduce
      rw [tEx_find_pEx2,
        show Triangulation.simplices tEx (0 : ℤ) 0 = 0 from
          (tEx_simplices0 0).trans tEx_us00,
        show Triangulation.simplices tEx (0 : ℤ) 1 = 3 from
          (tEx_simplices0 1).trans tEx_us01,
        show Triangulation.simplices tEx (0 : ℤ) 2 = 1 from
          (tEx_simplices0 2).trans tEx_us02,
        tEx_grid, gEx_state0 d, gEx_state3 d, gEx_state1 d]
      fin_cases d <;> norm_num [pEx2]
  exact ⟨h.1, (h.2 hins 1).1, (h.2 hins 1).2⟩

/-- Claim C6: for every valid global simplex id `g`, with rectangle index
`g / nsimplex_per_cell` and unit simplex id `g % nsimplex_per_cell`,
`Triangulation.simplices g` equals the unit simplex's vertex-index row with
the rectangle's corner-vertex index added to every entry; the corner index's
multi-index over the `num_points + 1` lattice equals the rectangle's
multi-index over the `num_points` lattice; and the physical vertices of
simplex `g` are the reference simplex's vertices translated by the cell's
bottom-left corner. -/
theorem claim_C6 {t : Triangulation n} (hv : t.toGridWorld.valid)
    (g : ℕ) (hg : g < t.nsimplex) :
    (∀ i, t.simplices (g : ℤ) i =
      t.unit_simplices (g % t.triangulation.nsimplex) i +
        t.toGridWorld.rectangle_corner_index (g / t.triangulation.nsimplex)) ∧
    (∀ d, unravel (fun e => t.toGridWorld.num_points e + 1)
      (t.toGridWorld.rectangle_corner_index (g / t.triangulation.nsimplex)) d =
      unravel t.toGridWorld.num_points (g / t.triangulation.nsimplex) d) ∧
    (∀ i d, t.toGridWorld.index_to_state (t.simplices (g : ℤ) i) d =
      t.toGridWorld.index_to_state
        (t.unit_simplices (g % t.triangulation.nsimplex) i) d +
        (t.toGridWorld.rectangle_to_state (g / t.triangulation.nsimplex) d -
          t.toGridWorld.offset d)) := by
  have hKpos : 0 < t.triangulation.nsimplex := by
    rcases Nat.eq_zero_or_pos t.triangulation.nsimplex with h | h
    · exfalso
      unfold Triangulation.nsimplex at hg
      rw [h, Nat.zero_mul] at hg
      exact absurd hg (Nat.not_lt_zero g)
    · exact h
  have hr : g / t.triangulation.nsimplex < t.toGridWorld.nrectangles := by
    rw [Nat.div_lt_iff_lt_mul hKpos]
    unfold Triangulation.nsimplex at hg
    rw [Nat.mul_comm]
    exact hg
  have hrP : g / t.triangulation.nsimplex < prodFn t.toGridWorld.num_points := hr
  refine ⟨fun i => rfl, fun d => ?_, fun i d => ?_⟩
  · unfold GridWorld.rectangle_corner_index
    rw [unravel_ravel]
    intro e
    have h1 := unravel_lt t.toGridWorld.num_points _ hrP e
    omega
  · have h0 : (0 : ℤ) ≤ (g : ℤ) := Int.natCast_nonneg g
    have h1 : (g : ℤ) < (t.nsimplex : ℤ) := by exact_mod_cast hg
    have h := (Triangulation.simplices_spec hv h0 h1).2 i d
    have hgoal : t.toGridWorld.index_to_state (t.simplices (g : ℤ) i) d =
        t.toGridWorld.index_to_state
          (t.unit_simplices (t.unit_id (g : ℤ)) i) d +
          (unravel t.toGridWorld.num_points
            (((g : ℤ) / (t.triangulation.nsimplex : ℤ)).toNat) d : ℚ) *
            t.toGridWorld.unit_maxes d := h
    have hcast1 : t.unit_id (g : ℤ) = g % t.triangulation.nsimplex := rfl
    have hcast2 : (((g : ℤ) / (t.triangulation.nsimplex : ℤ)).toNat) =
        g / t.triangulation.nsimplex := rfl
    rw [hcast1, hcast2] at hgoal
    rw [hgoal]
    unfold GridWorld.rectangle_to_state
    ring

/-- Witness for C6: the decomposition of global simplex id 3 (rectangle 1,
unit simplex 1) on the concrete grid, in index space and in physical space. -/
theorem claim_C6_witness :
    Triangulation.simplices tEx (3 : ℤ) 0 =
      Triangulation.unit_simplices tEx (3 % 2) 0 +
        tEx.toGridWorld.rectangle_corner_index (3 / 2) ∧
    tEx.toGridWorld.index_to_state (Triangulation.simplices tEx (3 : ℤ) 1) 0 =
      tEx.toGridWorld.index_to_state
        (Triangulation.unit_simplices tEx (3 % 2) 1) 0 +
        (tEx.toGridWorld.rectangle_to_state (3 / 2) 0 -
          tEx.toGridWorld.offset 0) := by
  have h := claim_C6 tEx_valid 3 (by decide)
  exact ⟨h.1 0, h.2.2 1 0⟩

/-- Claim C8 (evaluation of the code at the failing input): on the 1-D grid
with 2 cells, `PiecewiseConstant.gradient` of a single query point returns a
row of length `nindex = 3`, whereas the claim (and the interface the spec
describes) calls for one `ndim`-vector per point, that is, a row of length
`ndim = 1`.  The source writes `np.zeros((len(points), self.nindex))` where
`self.ndim` is clearly meant. -/
theorem claim_C8_code :
    (PiecewiseConstant.gradient gEx1 [pEx1]).map List.length = [gEx1.nindex] ∧
      gEx1.nindex = 3 := by
  constructor
  · show [(List.replicate gEx1.nindex (0 : ℚ)).length] = [gEx1.nindex]
    rw [List.length_replicate]
  · rfl

/-- Claim C9: when the triangulation is built with `project = true` and the
machine epsilon is nonnegative, a query point outside the per-dimension limits
evaluates to the same value as the clamped boundary point, and the projection
does not change which simplex `find_simplex` selects. -/
theorem claim_C9 {t : Triangulation n} (hproj : t.project = true)
    (heps : 0 ≤ t.toGridWorld.eps) (v : ℕ → ℚ) (p : Fin n → ℚ)
    (hout : ∃ d, p d < (t.toGridWorld.limits d).1 ∨
      (t.toGridWorld.limits d).2 < p d) :
    t.evaluate v p = t.evaluate v
      (fun d => clip ((t.toGridWorld.limits d).1) ((t.toGridWorld.limits d).2) (p d)) ∧
    t.find_simplex p = t.find_simplex
      (fun d => clip ((t.toGridWorld.limits d).1) ((t.toGridWorld.limits d).2) (p d)) := by
  have hcenter : t.toGridWorld.center_states true
      (fun d => clip ((t.toGridWorld.limits d).1) ((t.toGridWorld.limits d).2) (p d)) =
      t.toGridWorld.center_states true p := by
    funext d
    unfold GridWorld.center_states
    rw [if_pos rfl, if_pos rfl]
    rw [clip_sub ((t.toGridWorld.limits d).1) ((t.toGridWorld.limits d).2) (p d)
      (t.toGridWorld.offset d)]
    have h1 : (t.toGridWorld.limits d).1 - t.toGridWorld.offset d = 0 := by
      unfold GridWorld.offset
      ring
    have h2 : (t.toGridWorld.limits d).2 - t.toGridWorld.offset d =
        t.toGridWorld.extent d := rfl
    rw [h1, h2]
    exact clip_clip (by linarith) (by linarith) (p d - t.toGridWorld.offset d)
  have hfind : t.find_simplex
      (fun d => clip ((t.toGridWorld.limits d).1) ((t.toGridWorld.limits d).2) (p d)) =
      t.find_simplex p := by
    unfold Triangulation.find_simplex
    rw [hcenter]
  have hwp : t.get_weights_point
      (fun d => clip ((t.toGridWorld.limits d).1) ((t.toGridWorld.limits d).2) (p d)) =
      t.get_weights_point p := by
    funext d
    unfold Triangulation.get_weights_point
    rw [hproj, if_pos rfl, if_pos rfl]
    exact clip_clip (le_refl _) (le_refl _) (p d)
  have hgw : t.get_weights
      (fun d => clip ((t.toGridWorld.limits d).1) ((t.toGridWorld.limits d).2) (p d)) =
      t.get_weights p := by
    unfold Triangulation.get_weights
    rw [hfind, hwp]
  refine ⟨?_, hfind.symm⟩
  unfold Triangulation.evaluate
  rw [hfind, hgw]

/-- Witness for C9: the out-of-domain point `(2, 1/4)` on the concrete
projecting triangulation evaluates like its clamp onto the boundary. -/
theorem claim_C9_witness :
    Triangulation.evaluate tEx vEx pExOut = Triangulation.evaluate tEx vEx
      (fun d => clip ((tEx.toGridWorld.limits d).1) ((tEx.toGridWorld.limits d).2)
        (pExOut d)) :=
  (claim_C9 rfl (by norm_num [tEx, gEx]) vEx pExOut
    ⟨0, Or.inr (by norm_num [tEx, gEx, pExOut])⟩).1
